import Mathlib

/-!
# Verification of the PennQuinn.com content pipeline

A shallow embedding of the WordPress-export import scripts and the
slug-uniqueness storage layer of the PennQuinn.com photo-blog repository.

Strings are modelled as `List Char` (the `.data` of a Lean `String`).
JavaScript global-regex replacement (`String.prototype.replace` with a
`/g` pattern) is modelled by a left-to-right scanner `scanR` that, at each
position, asks a deterministic matcher for the match length; the matchers
below reproduce the deterministic behaviour of the concrete regexes used
in the repository (all of them are literal alternations followed by
greedy character-class runs whose backtracking is trivially resolvable,
so a deterministic matcher is exact).
-/

namespace PQ

/-- Model of the ECMAScript whitespace class: the characters matched by the
regex class `\s` and trimmed by `String.prototype.trim` (WhiteSpace and
LineTerminator code points). -/
def jsWsChar (c : Char) : Bool :=
  c = ' ' || c = '\t' || c = '\n' || c = '\r' || c = '\x0b' || c = '\x0c' ||
  c = '\u00a0' || c = '\u1680' || c = '\u2000' || c = '\u2001' || c = '\u2002' ||
  c = '\u2003' || c = '\u2004' || c = '\u2005' || c = '\u2006' || c = '\u2007' ||
  c = '\u2008' || c = '\u2009' || c = '\u200a' || c = '\u2028' || c = '\u2029' ||
  c = '\u202f' || c = '\u205f' || c = '\u3000' || c = '\ufeff'

/-- Model of JavaScript `String.prototype.trim`: drop `jsWsChar` characters
from both ends. -/
def jsTrim (s : List Char) : List Char :=
  List.rdropWhile jsWsChar (List.dropWhile jsWsChar s)

/-- Model of JavaScript `array.includes(x)` for an array of strings
(SameValueZero on strings is string equality). -/
def jsIncludes (l : List (List Char)) (x : List Char) : Bool :=
  l.any (fun y => decide (y = x))

/-- Model of the JavaScript idiom `v || d` for `v : string | undefined`:
an absent or empty (falsy) string is replaced by the default. -/
def jsOrStr (v : Option (List Char)) (d : List Char) : List Char :=
  match v with
  | none => d
  | some s => if s = [] then d else s

/-- `litMatch pat s` is true when the literal `pat` is an initial run of `s`
(the way a regex made of plain characters matches at the current position). -/
def litMatch : List Char → List Char → Bool
  | [], _ => true
  | _ :: _, [] => false
  | p :: ps, c :: cs => decide (p = c) && litMatch ps cs

/-- First literal of `pats` matching at the current position, returning its
length; models an alternation of literals (the alternatives used in this
repository are pairwise prefix-incomparable, so at most one can match). -/
def pickLit : List (List Char) → List Char → Option Nat
  | [], _ => none
  | p :: ps, s => if litMatch p s then some p.length else pickLit ps s

/-- One global-replace pass, fuelled (fuel bounds the number of scan steps;
`scanR` supplies `s.length`, which suffices because every match consumes at
least one character).  At each position the matcher `tm` is asked for a match
length `n`; on a match the replacement is emitted and scanning resumes after
the matched text (the replacement itself is not rescanned), exactly as in
JavaScript `replace` with a `/g` regex. -/
def scanRF (tm : List Char → Option Nat) (repl : List Char) : Nat → List Char → List Char
  | 0, s => s
  | _ + 1, [] => []
  | fuel + 1, c :: rest =>
    match tm (c :: rest) with
    | some n => repl ++ scanRF tm repl fuel (List.drop (n - 1) rest)
    | none => c :: scanRF tm repl fuel rest

/-- Model of `s.replace(re, repl)` for a `/g` regex with deterministic
matcher `tm`. -/
def scanR (tm : List Char → Option Nat) (repl : List Char) (s : List Char) : List Char :=
  scanRF tm repl s.length s

/-! ## Content cleaning (`cleanContent`, `decodeHtmlEntities`)

The two import scripts share their cleaning regexes; the database importer
additionally decodes a fixed set of HTML entities.  Each `replace` call is
one `scanR` pass with the deterministic matcher of its regex. -/

/-- The name alternation of the opening-shortcode regex
`\[(?:vc_|nectar_|slidepress)[^\]]*\]`. -/
def scOpenNames : List (List Char) := ["vc_".data, "nectar_".data, "slidepress".data]

/-- The name alternation of the closing-shortcode regex
`\[\/(?:vc_|nectar_)[^\]]*\]` (note: no `slidepress` here). -/
def scCloseNames : List (List Char) := ["vc_".data, "nectar_".data]

/-- Matcher of `[^\]]*\]` at the current position: the greedy run of
non-`]` characters followed by `]` succeeds exactly when a `]` occurs, and
the match ends at the first `]`; returns the number of characters consumed
including that `]`. -/
def scanToRB : List Char → Option Nat
  | [] => none
  | c :: t => if c = ']' then some 1 else (scanToRB t).map (· + 1)

/-- Matcher of `\[(?:vc_|nectar_|slidepress)[^\]]*\]`. -/
def tryOpenSC : List Char → Option Nat
  | [] => none
  | c :: rest =>
    if c = '[' then
      match pickLit scOpenNames rest with
      | some k => (scanToRB (List.drop k rest)).map (fun m => 1 + k + m)
      | none => none
    else none

/-- Matcher of `\[\/(?:vc_|nectar_)[^\]]*\]`. -/
def tryCloseSC : List Char → Option Nat
  | [] => none
  | c :: rest =>
    if c = '[' then
      match rest with
      | [] => none
      | d :: rest2 =>
        if d = '/' then
          match pickLit scCloseNames rest2 with
          | some k => (scanToRB (List.drop k rest2)).map (fun m => 2 + k + m)
          | none => none
        else none
    else none

/-- The shortcode replace `content.replace(re1, '')` for the opening form. -/
def stripOpenSC (s : List Char) : List Char := scanR tryOpenSC [] s

/-- The shortcode replace `content.replace(re2, '')` for the closing form. -/
def stripCloseSC (s : List Char) : List Char := scanR tryCloseSC [] s

/-- The shortcode-stripping stage: both shortcode replaces, in source order. -/
def stripShortcodes (s : List Char) : List Char := stripCloseSC (stripOpenSC s)

/-- The four literal expansions of
`https?:\/\/(?:www\.)?pennquinn\.com\/wp-content\/uploads\//g`, in greedy
backtracking order; they are pairwise prefix-incomparable, so at most one
matches at any position. -/
def pqPats : List (List Char) :=
  ["https://www.pennquinn.com/wp-content/uploads/".data,
   "https://pennquinn.com/wp-content/uploads/".data,
   "http://www.pennquinn.com/wp-content/uploads/".data,
   "http://pennquinn.com/wp-content/uploads/".data]

/-- The literal of
`http:\/\/live-pennquinn\.pantheonsite\.io\/wp-content\/uploads\//g`
(note: `http` only, no `https?`). -/
def panthPat : List Char :=
  "http://live-pennquinn.pantheonsite.io/wp-content/uploads/".data

/-- Replacement path for both legacy-host rewrites. -/
def uploadsPath : List Char := "/uploads/".data

/-- The pennquinn.com media-URL rewrite. -/
def rewritePQ (s : List Char) : List Char := scanR (pickLit pqPats) uploadsPath s

/-- The pantheonsite.io media-URL rewrite. -/
def rewritePanth (s : List Char) : List Char := scanR (pickLit [panthPat]) uploadsPath s

/-- Matcher of `<p>\s*<\/p>`: after `<p>` the greedy `\s*` stops at the
first non-whitespace character, which must start `</p>`. -/
def tryEmptyP (s : List Char) : Option Nat :=
  if litMatch "<p>".data s then
    let rest := List.drop 3 s
    let k := (rest.takeWhile jsWsChar).length
    if litMatch "</p>".data (List.drop k rest) then some (3 + k + 4) else none
  else none

/-- The empty-paragraph removal pass. -/
def dropEmptyP (s : List Char) : List Char := scanR tryEmptyP [] s

/-- Matcher of the blank-line regex: a maximal run of at least two
newline characters. -/
def tryNLRun : List Char → Option Nat
  | c :: d :: rest =>
    if c = '\n' then
      if d = '\n' then some (2 + (rest.takeWhile (fun e => decide (e = '\n'))).length)
      else none
    else none
  | _ => none

/-- The blank-line collapsing pass (replacement is two newlines). -/
def collapseNL (s : List Char) : List Char := scanR tryNLRun "\n\n".data s

/-- The twelve entity replacements of `decodeHtmlEntities`, in source order.
The `&mdash;` replacement is the three-character mojibake sequence present in
the source (U+00E2, U+20AC, U+201D), not an em dash; `&hellip;` and `&ndash;`
are replaced by ASCII approximations. -/
def entityPairs : List (List Char × List Char) :=
  [("&amp;".data, "&".data), ("&lt;".data, "<".data), ("&gt;".data, ">".data),
   ("&quot;".data, "\"".data), ("&#039;".data, "\x27".data),
   ("&rsquo;".data, "\x27".data), ("&lsquo;".data, "\x27".data),
   ("&rdquo;".data, "\"".data), ("&ldquo;".data, "\"".data),
   ("&hellip;".data, "...".data), ("&ndash;".data, "-".data),
   ("&mdash;".data, "â€”".data)]

/-- `decodeHtmlEntities` (database import script): twelve sequential global
literal replaces. -/
def decodeHtmlEntities (s : List Char) : List Char :=
  entityPairs.foldl (fun acc pr => scanR (pickLit [pr.1]) pr.2 acc) s

namespace Importer

/-- `cleanContent` of the database import script: shortcode stripping, legacy
media-URL rewriting, empty-paragraph removal, blank-line collapsing, entity
decoding, and a final trim, in source order. -/
def cleanContent (s : List Char) : List Char :=
  jsTrim (decodeHtmlEntities (collapseNL (dropEmptyP
    (rewritePanth (rewritePQ (stripShortcodes s))))))

end Importer

namespace Migrator

/-- `cleanContent` of the JSON migration script: identical to the version
in the database importer except that it does not decode HTML entities. -/
def cleanContent (s : List Char) : List Char :=
  jsTrim (collapseNL (dropEmptyP (rewritePanth (rewritePQ (stripShortcodes s)))))

end Migrator

/-! ## The WXR item pipeline

Both scripts read the export with `xml2js` and then run a pure per-item
loop; the model below starts from the parsed items (the `xml2js` call and
file reading are external libraries).  Optional fields model absent XML
elements; `contentEncoded` is also `none` when the parsed value is not a
string (both cases yield the empty string in the loop). -/

/-- A parsed `<category>` child of an item: either an attributed node
(`cat.$` present, `domain` attribute optional) with its text, or a bare
string. -/
inductive RawCat where
  | tagged (domain : Option (List Char)) (text : List Char)
  | bare (text : List Char)
  deriving DecidableEq

/-- A parsed `<item>` element of the WXR document. -/
structure Item where
  postType : Option (List Char)
  status : Option (List Char)
  postDate : Option (List Char)
  title : Option (List Char)
  postName : Option (List Char)
  postId : Option (List Char)
  contentEncoded : Option (List Char)
  excerptEncoded : Option (List Char)
  category : List RawCat
  deriving DecidableEq

/-- The `WPPost` draft record both scripts build.  `id` is `none` when
`parseInt` yields NaN. -/
structure Draft where
  id : Option Int
  title : List Char
  slug : List Char
  date : List Char
  content : List Char
  excerpt : List Char
  status : List Char
  type : List Char
  categories : List (List Char)
  tags : List (List Char)
  featuredImage : Option (List Char)
  deriving DecidableEq

/-- String interpolation of a possibly-undefined value (an absent value
prints as `undefined`). -/
def jsShowOpt (v : Option (List Char)) : List Char :=
  match v with
  | some s => s
  | none => "undefined".data

/-- Model of `parseInt(s, 10)`: skip leading whitespace, optional sign,
then the longest leading digit run; `none` models NaN (no digits). -/
def jsParseInt (s : List Char) : Option Int :=
  let t := s.dropWhile jsWsChar
  let go : List Char → Option Nat := fun u =>
    let d := u.takeWhile Char.isDigit
    if d = [] then none else some (d.foldl (fun a c => a * 10 + (c.toNat - 48)) 0)
  match t with
  | '-' :: u => (go u).map (fun n => -(n : Int))
  | '+' :: u => (go u).map (fun n => (n : Int))
  | u => (go u).map (fun n => (n : Int))

/-- Modelled from the JS runtime: `new Date(s).getTime()` on the date
strings of a WXR export (`YYYY-MM-DD HH:MM:SS`).  `none` models NaN (in
particular for the empty string); for a well-formed timestamp the model
returns a key that is order-isomorphic to the parsed time (digits of the
fixed-width string folded left to right). -/
def newDateMillis (s : List Char) : Option Nat :=
  if s = [] then none
  else if s.all (fun c => c.isDigit || c = '-' || c = ' ' || c = ':') &&
          s.any Char.isDigit then
    some (s.foldl (fun a c => if c.isDigit then a * 10 + (c.toNat - 48) else a) 0)
  else none

/-- Model of the comparator `(a, b) => new Date(b.date).getTime() -
new Date(a.date).getTime()`: true when the comparator value is ≤ 0; a NaN
comparator value is treated as 0 by ECMA-262 SortCompare, so either date
being invalid gives `true` (no reordering). -/
def dateDescLe (a b : Draft) : Bool :=
  match newDateMillis a.date, newDateMillis b.date with
  | some x, some y => decide (y ≤ x)
  | _, _ => true

/-- Stable insertion with respect to `dateDescLe` (ties keep the earlier
element first). -/
def insertByDate (d : Draft) : List Draft → List Draft
  | [] => [d]
  | e :: es => if dateDescLe d e then d :: e :: es else e :: insertByDate d es

/-- Model of `posts.sort(comparator)`: a stable sort with respect to the
comparator (modern `Array.prototype.sort` is stable). -/
def sortByDateDesc (l : List Draft) : List Draft := l.foldr insertByDate []

/-- Case-insensitive literal match, for the `/i` regex flag. -/
def litMatchCI : List Char → List Char → Bool
  | [], _ => true
  | _ :: _, [] => false
  | p :: ps, c :: cs => decide (p.toLower = c.toLower) && litMatchCI ps cs

/-- The `src` attribute pattern of the image regex at the current
position: `src=`, a single or double quote, a nonempty run of non-quote
characters (captured), then either quote. -/
def srcCapture (u : List Char) : Option (List Char) :=
  if litMatchCI "src=".data u then
    match List.drop 4 u with
    | q :: v =>
      if q = '"' ∨ q = '\x27' then
        let cap := v.takeWhile (fun c => decide (c ≠ '"') && decide (c ≠ '\x27'))
        if cap ≠ [] ∧ cap.length < v.length then some cap else none
      else none
    | [] => none
  else none

/-- Backtracking of the greedy `[^>]+` in the featured-image regex: try the
longest feasible non-`>` run first, then shorter ones (the run length must
be at least 1). -/
def imgAttrSearch (rest : List Char) : Nat → Option (List Char)
  | 0 => none
  | k + 1 =>
    match srcCapture (List.drop (k + 1) rest) with
    | some cap => some cap
    | none => imgAttrSearch rest k

/-- The full image-tag regex (an `<img` tag with a quoted `src`
attribute) at the current position. -/
def tryImg (s : List Char) : Option (List Char) :=
  if litMatchCI "<img".data s then
    let rest := List.drop 4 s
    imgAttrSearch rest ((rest.takeWhile (fun c => decide (c ≠ '>'))).length)
  else none

/-- Model of the case-insensitive `content.match` against the image-tag
regex: the capture of the leftmost match. -/
def imgSrc : List Char → Option (List Char)
  | [] => none
  | c :: rest =>
    match tryImg (c :: rest) with
    | some cap => some cap
    | none => imgSrc rest

/-- The category/tag extraction loop: attributed entries with domain
`category` go to categories and with domain `post_tag` to tags (any other
or absent domain is skipped); bare string entries count as categories;
source order is kept and duplicates are not removed. -/
def extractCats : List RawCat → List (List Char) × List (List Char)
  | [] => ([], [])
  | RawCat.tagged d t :: rest =>
    let p := extractCats rest
    if d = some "category".data then (t :: p.1, p.2)
    else if d = some "post_tag".data then (p.1, t :: p.2)
    else p
  | RawCat.bare t :: rest =>
    let p := extractCats rest
    (t :: p.1, p.2)

namespace Migrator

/-- The draft record the migration script pushes for a kept item (`pt` and
`st` are the post type and status of the item, already known to be
`post`/`publish`). -/
def buildDraft (it : Item) (pt st : List Char) : Draft :=
  { id := jsParseInt (jsOrStr it.postId "0".data),
    title := jsOrStr it.title "Untitled".data,
    slug := jsOrStr it.postName ("post-".data ++ jsShowOpt it.postId),
    date := jsOrStr it.postDate [],
    content := cleanContent (jsOrStr it.contentEncoded []),
    excerpt := jsOrStr it.excerptEncoded [],
    status := st,
    type := pt,
    categories := (extractCats it.category).1,
    tags := (extractCats it.category).2,
    featuredImage := imgSrc (cleanContent (jsOrStr it.contentEncoded [])) }

/-- The per-item body of `parseWordPressXML` in the migration script:
`none` when the item is skipped by the type/status filter or by the year
filter (`filterYear && postYear !== filterYear`, where `postYear` is the
first four characters of the date). -/
def processItem (filterYear : Option (List Char)) (it : Item) : Option Draft :=
  match it.postType, it.status with
  | some pt, some st =>
    if pt = "post".data ∧ st = "publish".data then
      if (match filterYear with
          | some y => decide (y ≠ []) && decide ((jsOrStr it.postDate []).take 4 ≠ y)
          | none => false) then none
      else some (buildDraft it pt st)
    else none
  | _, _ => none

/-- `parseWordPressXML` of the migration script after XML parsing: the item
loop followed by the date-descending sort. -/
def parseWordPressXML (items : List Item) (filterYear : Option (List Char)) :
    List Draft :=
  sortByDateDesc (items.filterMap (processItem filterYear))

end Migrator

namespace Importer

/-- The draft record the database import script pushes for a kept item: as
in the migration script but with the title passed through
`decodeHtmlEntities`. -/
def buildDraft (it : Item) (pt st : List Char) : Draft :=
  { id := jsParseInt (jsOrStr it.postId "0".data),
    title := decodeHtmlEntities (jsOrStr it.title "Untitled".data),
    slug := jsOrStr it.postName ("post-".data ++ jsShowOpt it.postId),
    date := jsOrStr it.postDate [],
    content := cleanContent (jsOrStr it.contentEncoded []),
    excerpt := jsOrStr it.excerptEncoded [],
    status := st,
    type := pt,
    categories := (extractCats it.category).1,
    tags := (extractCats it.category).2,
    featuredImage := imgSrc (cleanContent (jsOrStr it.contentEncoded [])) }

/-- The per-item body of `parseWordPressXML` in the database importer:
as in the migration script but with no year filter. -/
def processItem (it : Item) : Option Draft :=
  match it.postType, it.status with
  | some pt, some st =>
    if pt = "post".data ∧ st = "publish".data then some (buildDraft it pt st)
    else none
  | _, _ => none

/-- `parseWordPressXML` of the database importer after XML parsing. -/
def parseWordPressXML (items : List Item) : List Draft :=
  sortByDateDesc (items.filterMap processItem)

end Importer

/-! ## The post store (`DatabaseStorage`, server/storage.ts)

The `posts` table is modelled as a list of rows; each method of
`DatabaseStorage` becomes a pure function of the table (methods that write
also return the new table).  The drizzle/SQL operations used are: `eq`
filters, `like` with the pattern `baseSlug%` (modelled by PostgreSQL
`LIKE` matching: `%`/`_` wildcards and backslash as the default escape
character — the store is node-postgres, so the backslash in an
unescaped interpolated base slug is an escape in the pattern),
`returning()` (the list of affected rows), and single-row destructuring
(`head?`, `undefined` = `none`). -/

/-- Decimal digits of `n`, least significant first (fuelled; `n + 1` steps
always suffice). -/
def natDigitsRev : Nat → Nat → List Nat
  | 0, _ => []
  | f + 1, n => if n < 10 then [n] else n % 10 :: natDigitsRev f (n / 10)

/-- Model of JS number-to-string for a nonnegative integer (the template
literal `${counter}`): decimal notation. -/
def natStr (n : Nat) : List Char :=
  ((natDigitsRev (n + 1) n).reverse.map (fun d => Char.ofNat (48 + d)))

/-- PostgreSQL `LIKE` matching: `%` matches any sequence, `_` matches any
single character, the default escape character backslash makes the
following pattern character match literally (stripping it of any special
meaning), and other characters match themselves.  A pattern ending in a
lone backslash is an error in PostgreSQL; the model returns `false`
there, and the interpolated pattern of `getUniqueSlug` always ends in
`%`, never in a lone backslash.  Fuelled by pattern length + string
length (each step shortens the pattern or the string). -/
def likeMatchF : Nat → List Char → List Char → Bool
  | 0, _, _ => false
  | _ + 1, [], s => s.isEmpty
  | f + 1, p :: ps, s =>
    if p = '%' then
      likeMatchF f ps s ||
        (match s with
         | [] => false
         | _ :: t => likeMatchF f (p :: ps) t)
    else if p = '\\' then
      match ps with
      | [] => false
      | q :: qs =>
        match s with
        | [] => false
        | c :: t => decide (q = c) && likeMatchF f qs t
    else
      match s with
      | [] => false
      | c :: t =>
        if p = '_' then likeMatchF f ps t
        else decide (p = c) && likeMatchF f ps t

/-- SQL `LIKE`: `likeMatch pattern s`. -/
def likeMatch (p s : List Char) : Bool := likeMatchF (p.length + s.length + 1) p s

/-- A row of the `posts` table (shared/schema.ts); `date` is the timestamp
as an integer key, `featuredImage` is the nullable column. -/
structure PostRow where
  id : Int
  title : List Char
  slug : List Char
  date : Int
  content : List Char
  excerpt : List Char
  status : List Char
  type : List Char
  categories : List (List Char)
  tags : List (List Char)
  featuredImage : Option (List Char)
  galleryImages : List (List Char)
  deriving DecidableEq

/-- The partial update payload (`UpdatePost`): absent fields are not
written by `set`. -/
structure UpdatePost where
  title : Option (List Char) := none
  slug : Option (List Char) := none
  date : Option Int := none
  content : Option (List Char) := none
  excerpt : Option (List Char) := none
  status : Option (List Char) := none
  type : Option (List Char) := none
  categories : Option (List (List Char)) := none
  tags : Option (List (List Char)) := none
  featuredImage : Option (Option (List Char)) := none
  galleryImages : Option (List (List Char)) := none
  deriving DecidableEq

/-- `db.update(posts).set(u)` applied to one row: fields present in the
payload overwrite the fields of the row. -/
def applyUpdate (u : UpdatePost) (r : PostRow) : PostRow :=
  { id := r.id,
    title := u.title.getD r.title,
    slug := u.slug.getD r.slug,
    date := u.date.getD r.date,
    content := u.content.getD r.content,
    excerpt := u.excerpt.getD r.excerpt,
    status := u.status.getD r.status,
    type := u.type.getD r.type,
    categories := u.categories.getD r.categories,
    tags := u.tags.getD r.tags,
    featuredImage := u.featuredImage.getD r.featuredImage,
    galleryImages := u.galleryImages.getD r.galleryImages }

namespace DatabaseStorage

/-- `getPostById`: select the rows with this id and destructure the first;
`none` models `undefined` (not found) — there is no throwing path for a
missing record. -/
def getPostById (rows : List PostRow) (id : Int) : Option PostRow :=
  (rows.filter (fun r => decide (r.id = id))).head?

/-- `getPostBySlug`: as `getPostById`, keyed by slug. -/
def getPostBySlug (rows : List PostRow) (slug : List Char) : Option PostRow :=
  (rows.filter (fun r => decide (r.slug = slug))).head?

/-- The `while (slugs.includes(baseSlug-counter)) counter++` loop of
`getUniqueSlug`, fuelled; `slugs.length + 1` steps always suffice because
the candidate strings are pairwise distinct. -/
def slugCounter (slugs : List (List Char)) (b : List Char) : Nat → Nat → Nat
  | counter, 0 => counter
  | counter, fuel + 1 =>
    if jsIncludes slugs (b ++ "-".data ++ natStr counter)
    then slugCounter slugs b (counter + 1) fuel
    else counter

/-- The slug list `getUniqueSlug` tests against: the slugs of the rows
whose slug is `LIKE baseSlug%`, after dropping rows whose id equals
`excludeId` (`p => excludeId === undefined || p.id !== excludeId`). -/
def slugPool (rows : List PostRow) (baseSlug : List Char)
    (excludeId : Option Int) : List (List Char) :=
  ((rows.filter (fun r => likeMatch (baseSlug ++ ['%']) r.slug)).filter
    (fun r =>
      match excludeId with
      | none => true
      | some e => decide (r.id ≠ e))).map (fun r => r.slug)

/-- `getUniqueSlug(baseSlug, excludeId?)`: return `baseSlug` if it is not
in the pool, and otherwise the first `baseSlug-k`, counting up from
k = 2, that is not in the pool. -/
def getUniqueSlug (rows : List PostRow) (baseSlug : List Char)
    (excludeId : Option Int) : List Char :=
  let slugs := slugPool rows baseSlug excludeId
  if jsIncludes slugs baseSlug = false then baseSlug
  else baseSlug ++ "-".data ++ natStr (slugCounter slugs baseSlug 2 (slugs.length + 1))

/-- `updatePost(id, post)`: a truthy (present and nonempty) slug in the
payload is first replaced by a fresh unique slug excluding this id; then
the rows with this id are updated and the first updated row is returned
(`none` = not found).  Result: the new table and the returned row. -/
def updatePost (rows : List PostRow) (id : Int) (u : UpdatePost) :
    List PostRow × Option PostRow :=
  let u2 := match u.slug with
    | some s =>
      if s ≠ [] then { u with slug := some (getUniqueSlug rows s (some id)) } else u
    | none => u
  let newRows := rows.map (fun r => if r.id = id then applyUpdate u2 r else r)
  (newRows, (newRows.filter (fun r => decide (r.id = id))).head?)

/-- `deletePost(id)`: delete the rows with this id; the result is
`returning().length > 0`.  Result: the new table and the boolean. -/
def deletePost (rows : List PostRow) (id : Int) : List PostRow × Bool :=
  let deleted := rows.filter (fun r => decide (r.id = id))
  (rows.filter (fun r => decide (r.id ≠ id)), decide (0 < deleted.length))

end DatabaseStorage

/-! ## Facts about the decimal rendering, the LIKE filter and the counter loop -/

/-- Value of a least-significant-first digit list. -/
def digitsVal : List Nat → Nat
  | [] => 0
  | d :: ds => d + 10 * digitsVal ds

/-- A demonstration row for the closed witnesses below. -/
def demoRow (i : Int) (sl : List Char) : PostRow :=
  { id := i, title := [], slug := sl, date := 0, content := [], excerpt := [],
    status := "publish".data, type := "post".data, categories := [], tags := [],
    featuredImage := none, galleryImages := [] }

/-! ## Claims about the legacy media-URL rewriting -/

/-- Both URL replaces of `cleanContent`, in source order. -/
def rewriteUploadUrls (s : List Char) : List Char := rewritePanth (rewritePQ s)

/-- Decidable check that no alternative of `pats` can begin inside `w`:
for every nonempty tail `w1` of `w`, no alternative agrees with `w1` on
the whole length of `w1`. -/
def tailsNoLit (pats : List (List Char)) (w : List Char) : Bool :=
  w.tails.all (fun w1 =>
    w1.isEmpty || pats.all (fun p => ! litMatch (p.take w1.length) w1))

/-! ## Claims about the entity decoding -/

/-- Demonstration item and the draft the database import script builds from
it, for the closed witnesses below. -/
def demoDecodeItem : Item :=
  { postType := some "post".data, status := some "publish".data, postDate := none,
    title := some "A &amp; B".data, postName := none, postId := none,
    contentEncoded := none, excerptEncoded := none, category := [] }

def demoDecodeDraft : Draft :=
  { id := some 0, title := "A & B".data, slug := "post-undefined".data, date := [],
    content := [], excerpt := [], status := "publish".data, type := "post".data,
    categories := [], tags := [], featuredImage := none }

/-- Demonstration item and draft for the year-filter witness. -/
def demoYearItem : Item :=
  { postType := some "post".data, status := some "publish".data,
    postDate := some "2017-01-01 00:00:00".data, title := some "T".data,
    postName := some "t".data, postId := some "5".data, contentEncoded := none,
    excerptEncoded := none,
    category := [RawCat.tagged (some "category".data) "2017".data,
                 RawCat.tagged (some "post_tag".data) "Penn".data] }

def demoYearDraft : Draft :=
  { id := some 5, title := "T".data, slug := "t".data,
    date := "2017-01-01 00:00:00".data, content := [], excerpt := [],
    status := "publish".data, type := "post".data, categories := ["2017".data],
    tags := ["Penn".data], featuredImage := none }

/-- Items for the empty-date counterexample and witness: one kept item with
no date and no title, one kept item dated 2017. -/
def cexItemNoDate : Item :=
  { postType := some "post".data, status := some "publish".data, postDate := none,
    title := none, postName := none, postId := none, contentEncoded := none,
    excerptEncoded := none, category := [] }

def cexItemDated : Item :=
  { cexItemNoDate with
    postDate := some "2017-01-01 00:00:00".data
    title := some "B".data }

def cexDraftNoDate : Draft :=
  { id := some 0, title := "Untitled".data, slug := "post-undefined".data,
    date := [], content := [], excerpt := [], status := "publish".data,
    type := "post".data, categories := [], tags := [], featuredImage := none }

theorem litMatch_self_append (p t : List Char) : litMatch p (p ++ t) = true := by
  induction p with
  | nil => rfl
  | cons c cs ih => simp [litMatch, ih]

theorem litMatch_append_left {p q : List Char} (t : List Char)
    (h : litMatch p (q ++ t) = true) : litMatch (p.take q.length) q = true := by
  induction q generalizing p with
  | nil => simp [litMatch]
  | cons c cs ih =>
    cases p with
    | nil => simp [litMatch]
    | cons a as =>
      simp only [List.cons_append, litMatch, Bool.and_eq_true, decide_eq_true_eq] at h
      simpa [litMatch, h.1] using ih h.2

theorem litMatch_subset {p s : List Char} (h : litMatch p s = true) :
    ∀ c ∈ p, c ∈ s := by
  induction p generalizing s with
  | nil => simp
  | cons a as ih =>
    cases s with
    | nil => simp [litMatch] at h
    | cons b bs =>
      simp only [litMatch, Bool.and_eq_true, decide_eq_true_eq] at h
      intro c hc
      rcases List.mem_cons.mp hc with rfl | hc
      · simp [h.1]
      · exact List.mem_cons_of_mem _ (ih h.2 c hc)

theorem pickLit_eq_none {pats : List (List Char)} {s : List Char}
    (h : ∀ p ∈ pats, litMatch p s = false) : pickLit pats s = none := by
  induction pats with
  | nil => rfl
  | cons p ps ih =>
    simp only [pickLit]
    rw [h p (List.mem_cons_self p ps)]
    exact ih (fun q hq => h q (List.mem_cons_of_mem _ hq))

/-- With at least `s.length` fuel, the result of the scanner does not
depend on the exact amount of fuel. -/
theorem scanRF_fuel {tm : List Char → Option Nat} {repl : List Char} :
    ∀ (f g : Nat) (s : List Char), s.length ≤ f → s.length ≤ g →
      scanRF tm repl f s = scanRF tm repl g s := by
  intro f
  induction f with
  | zero =>
    intro g s hf _
    cases s with
    | nil => cases g <;> rfl
    | cons c rest => simp at hf
  | succ f ih =>
    intro g s hf hg
    cases s with
    | nil => cases g <;> rfl
    | cons c rest =>
      cases g with
      | zero => simp at hg
      | succ g =>
        cases htm : tm (c :: rest) with
        | none =>
          simp only [scanRF, htm]
          exact congrArg (c :: ·)
            (ih g rest (Nat.le_of_succ_le_succ hf) (Nat.le_of_succ_le_succ hg))
        | some n =>
          simp only [scanRF, htm]
          have hd : (List.drop (n - 1) rest).length ≤ rest.length := by
            simp [List.length_drop]
          have h1 : (List.drop (n - 1) rest).length ≤ f :=
            le_trans hd (Nat.le_of_succ_le_succ hf)
          have h2 : (List.drop (n - 1) rest).length ≤ g :=
            le_trans hd (Nat.le_of_succ_le_succ hg)
          rw [ih g _ h1 h2]

theorem scanR_nil (tm : List Char → Option Nat) (repl : List Char) :
    scanR tm repl [] = [] := rfl

/-- A match of length `n ≥ 1` at the head of the string: the scanner emits the
replacement and continues after the matched text. -/
theorem scanR_head_match {tm : List Char → Option Nat} {repl s : List Char} {n : Nat}
    (hm : tm s = some n) (h1 : 1 ≤ n) (hs : s ≠ []) :
    scanR tm repl s = repl ++ scanR tm repl (List.drop n s) := by
  cases s with
  | nil => exact absurd rfl hs
  | cons c rest =>
    show scanRF tm repl (rest.length + 1) (c :: rest) = _
    simp only [scanRF, hm]
    have hdrop : List.drop n (c :: rest) = List.drop (n - 1) rest := by
      cases n with
      | zero => exact absurd h1 (by simp)
      | succ m => simp
    rw [hdrop]
    have hd : (List.drop (n - 1) rest).length ≤ rest.length := by
      simp [List.length_drop]
    exact congrArg (repl ++ ·) (scanRF_fuel rest.length _ _ hd (le_refl _))

/-- If no nonempty suffix of `w` (continued by `u`) matches, the scanner walks
straight through `w` and processes `u` alone. -/
theorem scanR_append_no_match {tm : List Char → Option Nat} {repl : List Char}
    (w u : List Char)
    (h : ∀ w₁, w₁ <:+ w → w₁ ≠ [] → tm (w₁ ++ u) = none) :
    scanR tm repl (w ++ u) = w ++ scanR tm repl u := by
  induction w with
  | nil => simp
  | cons c w ih =>
    have hc : tm (c :: (w ++ u)) = none := h (c :: w) (List.suffix_refl _) (by simp)
    show scanRF tm repl ((w ++ u).length + 1) (c :: (w ++ u)) = _
    simp only [scanRF, hc]
    have : scanRF tm repl (w ++ u).length (w ++ u) = w ++ scanR tm repl u :=
      ih (fun w₁ hw hne => h w₁ (hw.trans (List.suffix_cons c w)) hne)
    rw [this]
    rfl

/-- If no nonempty suffix of `s` matches, the pass is the identity. -/
theorem scanR_id_of_no_match {tm : List Char → Option Nat} {repl : List Char}
    (s : List Char) (h : ∀ t, t <:+ s → t ≠ [] → tm t = none) :
    scanR tm repl s = s := by
  have := @scanR_append_no_match tm repl s []
    (fun w₁ hw hne => by simpa using h w₁ (by simpa using hw) hne)
  simpa [scanR_nil] using this

theorem natDigitsRev_val : ∀ (f n : Nat), n ≤ f → digitsVal (natDigitsRev (f + 1) n) = n := by
  intro f
  induction f with
  | zero =>
    intro n hn
    have h0 : n = 0 := Nat.le_zero.mp hn
    subst h0
    rfl
  | succ f ih =>
    intro n hn
    by_cases h : n < 10
    · simp [natDigitsRev, h, digitsVal]
    · have h10 : 10 ≤ n := Nat.le_of_not_lt h
      have hpos : 0 < n := lt_of_lt_of_le (by norm_num) h10
      have hdiv : n / 10 ≤ f := by
        have := Nat.div_lt_self hpos (by norm_num : (1 : Nat) < 10)
        omega
      show digitsVal (if n < 10 then [n] else n % 10 :: natDigitsRev (f + 1) (n / 10)) = n
      rw [if_neg h]
      show n % 10 + 10 * digitsVal (natDigitsRev (f + 1) (n / 10)) = n
      rw [ih (n / 10) hdiv]
      exact Nat.mod_add_div n 10

theorem natDigitsRev_lt : ∀ (f n : Nat), ∀ d ∈ natDigitsRev f n, d < 10 := by
  intro f
  induction f with
  | zero => intro n d hd; simp [natDigitsRev] at hd
  | succ f ih =>
    intro n d hd
    by_cases h : n < 10
    · simp only [natDigitsRev, if_pos h, List.mem_singleton] at hd
      omega
    · simp only [natDigitsRev, if_neg h, List.mem_cons] at hd
      rcases hd with rfl | hd
      · exact Nat.mod_lt _ (by norm_num)
      · exact ih _ d hd

theorem char_digit_val : ∀ d, d < 10 → (Char.ofNat (48 + d)).toNat = 48 + d := by decide

theorem map_digit_roundtrip (l : List Nat) (hl : ∀ d ∈ l, d < 10) :
    (l.map (fun d => Char.ofNat (48 + d))).map (fun c => c.toNat - 48) = l := by
  induction l with
  | nil => rfl
  | cons d ds ih =>
    have hd : (Char.ofNat (48 + d)).toNat = 48 + d :=
      char_digit_val d (hl d (List.mem_cons_self d ds))
    simp only [List.map_cons, hd]
    rw [ih (fun x hx => hl x (List.mem_cons_of_mem _ hx))]
    simp

theorem natStr_inj : Function.Injective natStr := by
  intro m n h
  have hrec : ∀ k : Nat,
      ((natStr k).map (fun c => c.toNat - 48)).reverse = natDigitsRev (k + 1) k := by
    intro k
    rw [natStr, map_digit_roundtrip _
      (fun d hd => natDigitsRev_lt (k + 1) k d (List.mem_reverse.mp hd))]
    exact List.reverse_reverse _
  have hdig : natDigitsRev (m + 1) m = natDigitsRev (n + 1) n := by
    rw [← hrec m, ← hrec n, h]
  calc m = digitsVal (natDigitsRev (m + 1) m) := (natDigitsRev_val m m (le_refl m)).symm
    _ = digitsVal (natDigitsRev (n + 1) n) := by rw [hdig]
    _ = n := natDigitsRev_val n n (le_refl n)

theorem slugCand_inj (b : List Char) (c : Nat) :
    Function.Injective (fun j : Nat => b ++ "-".data ++ natStr (c + j)) := by
  intro x y h
  simp only at h
  have h2 : natStr (c + x) = natStr (c + y) :=
    @List.append_cancel_left _ (b ++ "-".data) _ _ h
  have := natStr_inj h2
  omega

theorem jsIncludes_iff {l : List (List Char)} {x : List Char} :
    jsIncludes l x = true ↔ x ∈ l := by
  simp only [jsIncludes, List.any_eq_true, decide_eq_true_eq]
  constructor
  · rintro ⟨y, hy, rfl⟩; exact hy
  · intro hx; exact ⟨x, hx, rfl⟩

/-- Pigeonhole: among `slugs.length + 1` consecutive candidate slugs at
least one is unused (the candidates are pairwise distinct). -/
theorem exists_unused (slugs : List (List Char)) (b : List Char) (c : Nat) :
    ∃ j, j ≤ slugs.length ∧ (b ++ "-".data ++ natStr (c + j)) ∉ slugs := by
  by_contra hcon
  push_neg at hcon
  have hnodup :
      ((List.range (slugs.length + 1)).map
        (fun j => b ++ "-".data ++ natStr (c + j))).Nodup :=
    List.Nodup.map (slugCand_inj b c) (List.nodup_range _)
  have hsub :
      ((List.range (slugs.length + 1)).map
        (fun j => b ++ "-".data ++ natStr (c + j))) ⊆ slugs := by
    intro x hx
    rcases List.mem_map.mp hx with ⟨j, hj, rfl⟩
    exact hcon j (Nat.le_of_lt_succ (List.mem_range.mp hj))
  have hlen := (List.Nodup.subperm hnodup hsub).length_le
  simp at hlen

open DatabaseStorage

/-- Correctness of the counter loop: with an unused candidate within the
fuel bound, the loop returns the least counter whose candidate is unused. -/
theorem slugCounter_spec (slugs : List (List Char)) (b : List Char) :
    ∀ (fuel counter : Nat),
      (∃ j, j < fuel ∧ (b ++ "-".data ++ natStr (counter + j)) ∉ slugs) →
      counter ≤ slugCounter slugs b counter fuel ∧
      (b ++ "-".data ++ natStr (slugCounter slugs b counter fuel)) ∉ slugs ∧
      ∀ i, counter ≤ i → i < slugCounter slugs b counter fuel →
        (b ++ "-".data ++ natStr i) ∈ slugs := by
  intro fuel
  induction fuel with
  | zero =>
    rintro counter ⟨j, hj, _⟩
    exact absurd hj (Nat.not_lt_zero j)
  | succ fuel ih =>
    rintro counter ⟨j, hj, hout⟩
    by_cases hc : jsIncludes slugs (b ++ "-".data ++ natStr counter) = true
    · have hj0 : j ≠ 0 := by
        rintro rfl
        rw [Nat.add_zero] at hout
        exact hout (jsIncludes_iff.mp hc)
      obtain ⟨j', rfl⟩ : ∃ j', j = j' + 1 := ⟨j - 1, by omega⟩
      have hout2 : (b ++ "-".data ++ natStr (counter + 1 + j')) ∉ slugs := by
        have heq : counter + 1 + j' = counter + (j' + 1) := by omega
        rw [heq]; exact hout
      have hrec := ih (counter + 1) ⟨j', by omega, hout2⟩
      simp only [slugCounter, if_pos hc]
      refine ⟨by omega, hrec.2.1, ?_⟩
      intro i hi1 hi2
      rcases Nat.eq_or_lt_of_le hi1 with rfl | hlt
      · exact jsIncludes_iff.mp hc
      · exact hrec.2.2 i hlt hi2
    · simp only [slugCounter, if_neg hc]
      refine ⟨le_refl _, fun hmem => hc (jsIncludes_iff.mpr hmem), ?_⟩
      intro i h1 h2
      omega

theorem mem_slugPool {rows : List PostRow} {b x : List Char} {e : Option Int} :
    x ∈ DatabaseStorage.slugPool rows b e ↔
      ∃ r ∈ rows, r.slug = x ∧ likeMatch (b ++ ['%']) x = true ∧
        (match e with | none => True | some i => r.id ≠ i) := by
  simp only [DatabaseStorage.slugPool, List.mem_map, List.mem_filter]
  constructor
  · rintro ⟨r, ⟨⟨hr, hlike⟩, hex⟩, rfl⟩
    refine ⟨r, hr, rfl, hlike, ?_⟩
    cases e with
    | none => trivial
    | some i => simpa using hex
  · rintro ⟨r, hr, rfl, hlike, hex⟩
    refine ⟨r, ⟨⟨hr, hlike⟩, ?_⟩, rfl⟩
    cases e with
    | none => rfl
    | some i => simpa using hex

theorem likeMatchF_nil_step (f : Nat) (s : List Char) :
    likeMatchF (f + 1) [] s = s.isEmpty := by
  simp [likeMatchF]

theorem likeMatchF_pct_step (f : Nat) (ps s : List Char) :
    likeMatchF (f + 1) ('%' :: ps) s =
      (likeMatchF f ps s ||
        (match s with | [] => false | _ :: t => likeMatchF f ('%' :: ps) t)) := by
  simp [likeMatchF]

theorem likeMatchF_lit_step (f : Nat) (p : Char) (ps : List Char) (c : Char)
    (cs : List Char) (hp : p ≠ '%') (hq : p ≠ '\\') :
    likeMatchF (f + 1) (p :: ps) (c :: cs) =
      (if p = '_' then likeMatchF f ps cs else decide (p = c) && likeMatchF f ps cs) := by
  simp [likeMatchF, hp, hq]

/-- A lone `%` matches every string (given enough fuel). -/
theorem likeMatchF_pct : ∀ (t : List Char) (f : Nat), t.length + 2 ≤ f →
    likeMatchF f ['%'] t = true := by
  intro t
  induction t with
  | nil =>
    intro f hf
    obtain ⟨f1, rfl⟩ : ∃ f1, f = f1 + 1 := ⟨f - 1, by omega⟩
    obtain ⟨f2, rfl⟩ : ∃ f2, f1 = f2 + 1 := ⟨f1 - 1, by omega⟩
    rw [likeMatchF_pct_step, likeMatchF_nil_step]
    simp
  | cons c t ih =>
    intro f hf
    obtain ⟨f1, rfl⟩ : ∃ f1, f = f1 + 1 := ⟨f - 1, by omega⟩
    have hrec := ih f1 (by simp only [List.length_cons] at hf; omega)
    rw [likeMatchF_pct_step]
    simp [hrec]

/-- For a backslash-free base, any string extending the base matches the
pattern `base%` (given enough fuel), whatever other characters —
including LIKE wildcards — the base itself contains. -/
theorem likeMatchF_append : ∀ (b t : List Char), '\\' ∉ b → ∀ (f : Nat),
    2 * b.length + t.length + 2 ≤ f →
    likeMatchF f (b ++ ['%']) (b ++ t) = true := by
  intro b
  induction b with
  | nil =>
    intro t _ f hf
    simpa using likeMatchF_pct t f (by simpa using hf)
  | cons c b ih =>
    intro t hnb f hf
    have hcb : c ≠ '\\' := by
      intro h
      exact hnb (by rw [h]; exact List.mem_cons_self _ _)
    have hb : ('\\' : Char) ∉ b := fun h => hnb (List.mem_cons_of_mem c h)
    obtain ⟨f1, rfl⟩ : ∃ f1, f = f1 + 1 := ⟨f - 1, by omega⟩
    have hlen : 2 * b.length + t.length + 2 ≤ f1 := by
      simp only [List.length_cons] at hf; omega
    by_cases hc : c = '%'
    · subst hc
      obtain ⟨f2, rfl⟩ : ∃ f2, f1 = f2 + 1 := ⟨f1 - 1, by omega⟩
      have hin : likeMatchF f2 (b ++ ['%']) (b ++ t) = true :=
        ih t hb f2 (by simp only [List.length_cons] at hf; omega)
      show likeMatchF (f2 + 1 + 1) ('%' :: (b ++ ['%'])) ('%' :: (b ++ t)) = true
      rw [likeMatchF_pct_step]
      have htail : likeMatchF (f2 + 1) ('%' :: (b ++ ['%'])) (b ++ t) = true := by
        rw [likeMatchF_pct_step, hin]
        simp
      simp [htail]
    · by_cases hu : c = '_'
      · show likeMatchF (f1 + 1) (c :: (b ++ ['%'])) (c :: (b ++ t)) = true
        rw [likeMatchF_lit_step _ _ _ _ _ hc hcb, if_pos hu]
        exact ih t hb f1 hlen
      · show likeMatchF (f1 + 1) (c :: (b ++ ['%'])) (c :: (b ++ t)) = true
        rw [likeMatchF_lit_step _ _ _ _ _ hc hcb, if_neg hu]
        rw [ih t hb f1 hlen]
        simp

/-- `likeMatch (b ++ "%") (b ++ t)` holds whenever the base contains no
backslash: the LIKE filter of `getUniqueSlug` then keeps every slug that
literally extends the base.  (With a backslash in the base the escape
semantics can make the pattern miss the base itself — see the C1
counterexample.) -/
theorem likeMatch_base_append (b t : List Char) (hb : '\\' ∉ b) :
    likeMatch (b ++ ['%']) (b ++ t) = true := by
  have : (b ++ ['%']).length + (b ++ t).length + 1 =
      2 * b.length + t.length + 2 := by simp; omega
  rw [likeMatch, this]
  exact likeMatchF_append b t hb _ (le_refl _)

/-! ## Claims about the slug allocator and the CRUD contract -/

/-- Strings matching the LIKE filter are in the pool (no excludeId) exactly
when they are stored slugs. -/
theorem mem_slugPool_none {rows : List PostRow} {b x : List Char}
    (hx : likeMatch (b ++ ['%']) x = true) :
    x ∈ DatabaseStorage.slugPool rows b none ↔ x ∈ rows.map PostRow.slug := by
  rw [mem_slugPool, List.mem_map]
  constructor
  · rintro ⟨r, hr, hs, _, _⟩; exact ⟨r, hr, hs⟩
  · rintro ⟨r, hr, hs⟩; exact ⟨r, hr, hs, hx, trivial⟩

/-- C1 (amended): for a base slug containing no backslash, `getUniqueSlug`
with no excludeId returns the base slug unchanged when it is not among the
stored slugs, and otherwise `base-k` for the least integer k ≥ 2 such that
`base-k` is not among the stored slugs.  The restriction is necessary:
backslash is the default PostgreSQL LIKE escape character, and the base
slug is interpolated unescaped into the pattern, so a backslash in the
base makes the prefix query miss the stored base itself — see the
counterexample. -/
theorem getUniqueSlug_spec (rows : List PostRow) (b : List Char) (hnb : '\\' ∉ b) :
    (b ∉ rows.map PostRow.slug → DatabaseStorage.getUniqueSlug rows b none = b) ∧
    (b ∈ rows.map PostRow.slug →
      ∃ k, 2 ≤ k ∧
        DatabaseStorage.getUniqueSlug rows b none = b ++ "-".data ++ natStr k ∧
        (b ++ "-".data ++ natStr k) ∉ rows.map PostRow.slug ∧
        ∀ j, 2 ≤ j → j < k →
          (b ++ "-".data ++ natStr j) ∈ rows.map PostRow.slug) := by
  have hpatb : likeMatch (b ++ ['%']) b = true := by
    have := likeMatch_base_append b [] hnb
    rwa [List.append_nil] at this
  have hpatc : ∀ k : Nat, likeMatch (b ++ ['%']) (b ++ "-".data ++ natStr k) = true := by
    intro k
    rw [List.append_assoc]
    exact likeMatch_base_append b _ hnb
  constructor
  · intro hout
    have hnot : b ∉ DatabaseStorage.slugPool rows b none := fun hmem =>
      hout ((mem_slugPool_none hpatb).mp hmem)
    have hfalse : jsIncludes (DatabaseStorage.slugPool rows b none) b = false := by
      cases hinc : jsIncludes (DatabaseStorage.slugPool rows b none) b with
      | false => rfl
      | true => exact absurd (jsIncludes_iff.mp hinc) hnot
    simp [DatabaseStorage.getUniqueSlug, hfalse]
  · intro hin
    have hmem : b ∈ DatabaseStorage.slugPool rows b none :=
      (mem_slugPool_none hpatb).mpr hin
    have htrue : jsIncludes (DatabaseStorage.slugPool rows b none) b = true :=
      jsIncludes_iff.mpr hmem
    obtain ⟨j, hjle, hout⟩ :=
      exists_unused (DatabaseStorage.slugPool rows b none) b 2
    have hspec := slugCounter_spec (DatabaseStorage.slugPool rows b none) b
      ((DatabaseStorage.slugPool rows b none).length + 1) 2 ⟨j, by omega, hout⟩
    refine ⟨DatabaseStorage.slugCounter (DatabaseStorage.slugPool rows b none) b 2
      ((DatabaseStorage.slugPool rows b none).length + 1), hspec.1, ?_, ?_, ?_⟩
    · simp [DatabaseStorage.getUniqueSlug, htrue]
    · intro hc
      exact hspec.2.1 ((mem_slugPool_none (hpatc _)).mpr hc)
    · intro i h2 hik
      exact (mem_slugPool_none (hpatc i)).mp (hspec.2.2 i h2 hik)

theorem getUniqueSlug_spec_witness :
    ('\\' : Char) ∉ "beach-day".data ∧
    "beach-day".data ∈
      ([demoRow 1 "beach-day".data, demoRow 2 "beach-day-2".data].map PostRow.slug) ∧
    (∃ k, 2 ≤ k ∧
      DatabaseStorage.getUniqueSlug
        [demoRow 1 "beach-day".data, demoRow 2 "beach-day-2".data]
        "beach-day".data none = "beach-day".data ++ "-".data ++ natStr k ∧
      ("beach-day".data ++ "-".data ++ natStr k) ∉
        ([demoRow 1 "beach-day".data, demoRow 2 "beach-day-2".data].map PostRow.slug) ∧
      ∀ j, 2 ≤ j → j < k →
        ("beach-day".data ++ "-".data ++ natStr j) ∈
          ([demoRow 1 "beach-day".data, demoRow 2 "beach-day-2".data].map PostRow.slug)) :=
  ⟨by decide, by decide,
   (getUniqueSlug_spec [demoRow 1 "beach-day".data, demoRow 2 "beach-day-2".data]
     "beach-day".data (by decide)).2 (by decide)⟩

/-- C1 counterexample: with a stored slug containing a backslash, the
PostgreSQL LIKE escape makes the interpolated prefix pattern miss the
stored base slug itself (the pattern fragment backslash-`b` matches a
literal `b`, not a backslash), so the pool is empty and `getUniqueSlug`
returns the already-stored base slug — a collision — where the original
claim demands a fresh `base-k` with k ≥ 2. -/
theorem getUniqueSlug_backslash_collision :
    "a\\b".data ∈ ([demoRow 1 "a\\b".data].map PostRow.slug) ∧
    DatabaseStorage.getUniqueSlug [demoRow 1 "a\\b".data] "a\\b".data none =
      "a\\b".data ∧
    DatabaseStorage.getUniqueSlug [demoRow 1 "a\\b".data] "a\\b".data none ∈
      ([demoRow 1 "a\\b".data].map PostRow.slug) :=
  ⟨by decide, by decide, by decide⟩

/-- C6: with `excludeId` set to the id of a post, allocating the current
slug of that same post returns it unchanged whenever no other post holds
the same slug. -/
theorem getUniqueSlug_excludeSelf (rows : List PostRow) (p : PostRow) (b : List Char)
    (hp : p ∈ rows) (hb : p.slug = b)
    (honly : ∀ q ∈ rows, q.slug = b → q.id = p.id) :
    DatabaseStorage.getUniqueSlug rows b (some p.id) = b := by
  have hnot : b ∉ DatabaseStorage.slugPool rows b (some p.id) := by
    intro hmem
    rcases mem_slugPool.mp hmem with ⟨r, hr, hs, _, hne⟩
    exact hne (honly r hr hs)
  have hfalse : jsIncludes (DatabaseStorage.slugPool rows b (some p.id)) b = false := by
    cases hinc : jsIncludes (DatabaseStorage.slugPool rows b (some p.id)) b with
    | false => rfl
    | true => exact absurd (jsIncludes_iff.mp hinc) hnot
  simp [DatabaseStorage.getUniqueSlug, hfalse]

theorem getUniqueSlug_excludeSelf_witness :
    demoRow 1 "beach-day".data ∈ [demoRow 1 "beach-day".data, demoRow 2 "other".data] ∧
    DatabaseStorage.getUniqueSlug [demoRow 1 "beach-day".data, demoRow 2 "other".data]
      "beach-day".data (some 1) = "beach-day".data :=
  ⟨by decide,
   getUniqueSlug_excludeSelf [demoRow 1 "beach-day".data, demoRow 2 "other".data]
     (demoRow 1 "beach-day".data) "beach-day".data (by decide) (by decide)
     (by decide)⟩

/-- C8: lookups, updates and deletes signal a missing record by value:
`getPostById`/`getPostBySlug` return `none` on an absent key, `updatePost`
returns `none` on an absent id, and `deletePost` returns `true` exactly
when a row was removed — on an absent id it returns `false` and leaves the
table unchanged. -/
theorem store_absent_spec :
    (∀ (rows : List PostRow) (i : Int), (∀ r ∈ rows, r.id ≠ i) →
      DatabaseStorage.getPostById rows i = none) ∧
    (∀ (rows : List PostRow) (sl : List Char), (∀ r ∈ rows, r.slug ≠ sl) →
      DatabaseStorage.getPostBySlug rows sl = none) ∧
    (∀ (rows : List PostRow) (i : Int) (u : UpdatePost), (∀ r ∈ rows, r.id ≠ i) →
      (DatabaseStorage.updatePost rows i u).2 = none) ∧
    (∀ (rows : List PostRow) (i : Int),
      ((DatabaseStorage.deletePost rows i).2 = true ↔ ∃ r ∈ rows, r.id = i) ∧
      ((∀ r ∈ rows, r.id ≠ i) →
        (DatabaseStorage.deletePost rows i).2 = false ∧
        (DatabaseStorage.deletePost rows i).1 = rows)) := by
  refine ⟨?_, ?_, ?_, ?_⟩
  · intro rows i h
    have hfil : rows.filter (fun r => decide (r.id = i)) = [] := by
      rw [List.filter_eq_nil_iff]
      intro a ha
      simp [h a ha]
    simp [DatabaseStorage.getPostById, hfil]
  · intro rows sl h
    have hfil : rows.filter (fun r => decide (r.slug = sl)) = [] := by
      rw [List.filter_eq_nil_iff]
      intro a ha
      simp [h a ha]
    simp [DatabaseStorage.getPostBySlug, hfil]
  · intro rows i u h
    have hfil : ∀ (v : UpdatePost),
        ((rows.map fun r => if r.id = i then applyUpdate v r else r).filter
          (fun r => decide (r.id = i))) = [] := by
      intro v
      rw [List.filter_eq_nil_iff]
      intro x hx
      rcases List.mem_map.mp hx with ⟨r, hr, rfl⟩
      rw [if_neg (h r hr)]
      simp [h r hr]
    simp only [DatabaseStorage.updatePost]
    rw [hfil]
    rfl
  · intro rows i
    constructor
    · simp only [DatabaseStorage.deletePost, decide_eq_true_eq]
      rw [List.length_pos]
      constructor
      · intro hne
        rcases List.exists_mem_of_ne_nil _ hne with ⟨x, hx⟩
        rcases List.mem_filter.mp hx with ⟨hxr, hxid⟩
        exact ⟨x, hxr, by simpa using hxid⟩
      · rintro ⟨r, hr, hid⟩
        intro hnil
        have : r ∈ rows.filter (fun x => decide (x.id = i)) :=
          List.mem_filter.mpr ⟨hr, by simp [hid]⟩
        rw [hnil] at this
        simp at this
    · intro h
      have hfil : rows.filter (fun r => decide (r.id = i)) = [] := by
        rw [List.filter_eq_nil_iff]
        intro a ha
        simp [h a ha]
      constructor
      · simp [DatabaseStorage.deletePost, hfil]
      · show rows.filter (fun r => decide (r.id ≠ i)) = rows
        rw [List.filter_eq_self]
        intro a ha
        simp [h a ha]

theorem store_absent_spec_witness :
    DatabaseStorage.getPostById [demoRow 1 "a".data] 2 = none ∧
    DatabaseStorage.getPostBySlug [demoRow 1 "a".data] "b".data = none ∧
    (DatabaseStorage.updatePost [demoRow 1 "a".data] 2 {}).2 = none ∧
    (DatabaseStorage.deletePost [demoRow 1 "a".data] 2).2 = false ∧
    (DatabaseStorage.deletePost [demoRow 1 "a".data] 1).2 = true :=
  ⟨store_absent_spec.1 [demoRow 1 "a".data] 2 (by decide),
   store_absent_spec.2.1 [demoRow 1 "a".data] "b".data (by decide),
   store_absent_spec.2.2.1 [demoRow 1 "a".data] 2 {} (by decide),
   ((store_absent_spec.2.2.2 [demoRow 1 "a".data] 2).2 (by decide)).1,
   (store_absent_spec.2.2.2 [demoRow 1 "a".data] 1).1.mpr
     ⟨demoRow 1 "a".data, by decide, by decide⟩⟩

theorem litMatch_false_of_take {p q : List Char} (t : List Char)
    (hd : litMatch (p.take q.length) q = false) : litMatch p (q ++ t) = false := by
  cases h : litMatch p (q ++ t) with
  | false => rfl
  | true => exact absurd (litMatch_append_left t h) (by simp [hd])

theorem scanToRB_append {a : List Char} (r : List Char) (ha : ∀ c ∈ a, c ≠ ']') :
    scanToRB (a ++ ']' :: r) = some (a.length + 1) := by
  induction a with
  | nil => simp [scanToRB]
  | cons c a ih =>
    have hc : c ≠ ']' := ha c (List.mem_cons_self c a)
    have := ih (fun x hx => ha x (List.mem_cons_of_mem _ hx))
    simp [scanToRB, hc, this]

theorem tryOpenSC_none_of_head {c : Char} (t : List Char) (hc : c ≠ '[') :
    tryOpenSC (c :: t) = none := by
  simp [tryOpenSC, hc]

theorem tryCloseSC_none_of_head {c : Char} (t : List Char) (hc : c ≠ '[') :
    tryCloseSC (c :: t) = none := by
  simp [tryCloseSC, hc]

/-- A pass is the identity when the matcher rejects the whole string and no
character after the first equals the mandatory first character of the
matcher. -/
theorem scanR_id_of_head_cond {tm : List Char → Option Nat} {repl : List Char}
    (lb : Char) (s : List Char)
    (h0 : tm s = none)
    (hstep : ∀ (c : Char) (t : List Char), c ≠ lb → tm (c :: t) = none)
    (htail : ∀ c ∈ s.drop 1, c ≠ lb) :
    scanR tm repl s = s := by
  apply scanR_id_of_no_match
  intro t hsuf hne
  cases s with
  | nil =>
    rw [List.suffix_nil.mp hsuf] at hne
    exact absurd rfl hne
  | cons a rest =>
    rcases List.suffix_cons_iff.mp hsuf with rfl | h2
    · exact h0
    · cases t with
      | nil => exact absurd rfl hne
      | cons c t' =>
        exact hstep c t' (htail c (h2.subset (List.mem_cons_self c t')))

/-- Removing a match that spans the whole string with an empty replacement
empties the string. -/
theorem scanR_all_match {tm : List Char → Option Nat} {s : List Char}
    (hm : tm s = some s.length) (hne : s ≠ []) :
    scanR tm [] s = [] := by
  have h1 : 1 ≤ s.length := by
    cases s with
    | nil => exact absurd rfl hne
    | cons c t => simp
  rw [scanR_head_match hm h1 hne]
  simp [scanR_nil]

theorem tryOpenSC_tag {nm a r : List Char}
    (hnm : pickLit scOpenNames (nm ++ (a ++ ']' :: r)) = some nm.length)
    (ha : ∀ c ∈ a, c ≠ ']') :
    tryOpenSC ('[' :: (nm ++ (a ++ ']' :: r))) =
      some (1 + nm.length + (a.length + 1)) := by
  simp only [tryOpenSC, if_pos rfl, hnm]
  rw [List.drop_left, scanToRB_append r ha]
  simp

theorem tryCloseSC_tag {nm a r : List Char}
    (hnm : pickLit scCloseNames (nm ++ (a ++ ']' :: r)) = some nm.length)
    (ha : ∀ c ∈ a, c ≠ ']') :
    tryCloseSC ('[' :: '/' :: (nm ++ (a ++ ']' :: r))) =
      some (2 + nm.length + (a.length + 1)) := by
  simp only [tryCloseSC, if_pos rfl, hnm]
  rw [List.drop_left, scanToRB_append r ha]
  simp

theorem litMatch_head_ne {p c : Char} (ps cs : List Char) (hpc : p ≠ c) :
    litMatch (p :: ps) (c :: cs) = false := by
  simp [litMatch, hpc]

/-- A whole opening tag of a listed name is removed by the opening pass. -/
theorem stripOpen_open_tag (nm a : List Char)
    (hnm : pickLit scOpenNames (nm ++ (a ++ ']' :: [])) = some nm.length)
    (ha : ∀ c ∈ a, c ≠ ']') :
    stripOpenSC ('[' :: (nm ++ (a ++ ']' :: []))) = [] := by
  apply scanR_all_match
  · rw [@tryOpenSC_tag nm a [] hnm ha]
    congr 1
    simp [List.length_append]
    omega
  · simp

/-- No opening-shortcode match starts at a `/`. -/
theorem pickOpen_slash (rest : List Char) :
    pickLit scOpenNames ('/' :: rest) = none := by
  apply pickLit_eq_none
  intro p hp
  have hfalse : litMatch (p.take (['/'] : List Char).length) ['/'] = false := by
    fin_cases hp <;> decide
  exact litMatch_false_of_take rest hfalse

/-- The opening pass leaves a string `[/...]` unchanged when `[` occurs only
at the front. -/
theorem stripOpen_id_close_shape (rest : List Char)
    (htail : ∀ c ∈ rest, c ≠ '[') :
    stripOpenSC ('[' :: '/' :: rest) = '[' :: '/' :: rest := by
  apply scanR_id_of_head_cond '['
  · simp [tryOpenSC, pickOpen_slash]
  · exact fun c t hc => tryOpenSC_none_of_head t hc
  · intro c hc
    rcases List.mem_cons.mp hc with rfl | hc
    · decide
    · exact htail c hc

/-- A whole closing tag of a listed name is removed by the closing pass
(after the opening pass left it unchanged). -/
theorem stripShort_close_tag (nm a : List Char)
    (hnm : pickLit scCloseNames (nm ++ (a ++ ']' :: [])) = some nm.length)
    (ha : ∀ c ∈ a, c ≠ ']')
    (hnmlb : ∀ c ∈ nm, c ≠ '[') (halb : ∀ c ∈ a, c ≠ '[') :
    stripShortcodes ('[' :: '/' :: (nm ++ (a ++ ']' :: []))) = [] := by
  have htail : ∀ c ∈ (nm ++ (a ++ ']' :: [])), c ≠ '[' := by
    intro c hc
    rcases List.mem_append.mp hc with hc | hc
    · exact hnmlb c hc
    · rcases List.mem_append.mp hc with hc | hc
      · exact halb c hc
      · rcases List.mem_singleton.mp hc with rfl
        decide
  show stripCloseSC (stripOpenSC ('[' :: '/' :: (nm ++ (a ++ ']' :: [])))) = []
  rw [stripOpen_id_close_shape _ htail]
  apply scanR_all_match
  · rw [@tryCloseSC_tag nm a [] hnm ha]
    congr 1
    simp [List.length_append]
    omega
  · simp

theorem stripShort_open_tag (nm a : List Char)
    (hnm : pickLit scOpenNames (nm ++ (a ++ ']' :: [])) = some nm.length)
    (ha : ∀ c ∈ a, c ≠ ']') :
    stripShortcodes ('[' :: (nm ++ (a ++ ']' :: []))) = [] := by
  show stripCloseSC (stripOpenSC ('[' :: (nm ++ (a ++ ']' :: [])))) = []
  rw [stripOpen_open_tag nm a hnm ha]
  rfl

theorem tryCloseSC_cons (rest : List Char) :
    tryCloseSC ('[' :: '/' :: rest) =
      (match pickLit scCloseNames rest with
       | some k => (scanToRB (List.drop k rest)).map (fun m => 2 + k + m)
       | none => none) := by
  simp [tryCloseSC]

/-- A closing `slidepress` tag is preserved by both passes. -/
theorem stripShort_close_slidepress (a : List Char)
    (ha : ∀ c ∈ a, c ≠ ']') (halb : ∀ c ∈ a, c ≠ '[') :
    stripShortcodes ('[' :: '/' :: ("slidepress".data ++ (a ++ ']' :: []))) =
      '[' :: '/' :: ("slidepress".data ++ (a ++ ']' :: [])) := by
  have hss : ∀ c ∈ "slidepress".data, c ≠ '[' := by decide
  have htail : ∀ c ∈ ("slidepress".data ++ (a ++ ']' :: [])), c ≠ '[' := by
    intro c hc
    rcases List.mem_append.mp hc with hc | hc
    · exact hss c hc
    · rcases List.mem_append.mp hc with hc | hc
      · exact halb c hc
      · rcases List.mem_singleton.mp hc with rfl
        decide
  have hpickc : pickLit scCloseNames ("slidepress".data ++ (a ++ ']' :: [])) = none := by
    apply pickLit_eq_none
    intro p hp
    have hfalse : litMatch (p.take "slidepress".data.length) "slidepress".data = false := by
      fin_cases hp <;> decide
    exact litMatch_false_of_take _ hfalse
  show stripCloseSC (stripOpenSC _) = _
  rw [stripOpen_id_close_shape _ htail]
  apply scanR_id_of_head_cond '['
  · rw [tryCloseSC_cons, hpickc]
  · exact fun c t hc => tryCloseSC_none_of_head t hc
  · intro c hc
    rcases List.mem_cons.mp hc with rfl | hc
    · decide
    · exact htail c hc

theorem pickLit_cons_pos {p s : List Char} (ps : List (List Char))
    (h : litMatch p s = true) : pickLit (p :: ps) s = some p.length := by
  simp [pickLit, h]

theorem pickLit_cons_neg {p s : List Char} (ps : List (List Char))
    (h : litMatch p s = false) : pickLit (p :: ps) s = pickLit ps s := by
  simp [pickLit, h]

/-- C3 (amended): the shortcode-stripping stage removes an opening tag of
any of the three prefixes `vc_`, `nectar_`, `slidepress` together with its
whole bracketed argument text, and removes a closing tag for `vc_` and
`nectar_` only — a closing `slidepress` tag is left in place (the closing
alternation of the closing regex has no `slidepress` branch). -/
theorem stripShortcodes_spec (a : List Char)
    (ha : ∀ c ∈ a, c ≠ ']' ∧ c ≠ '[') :
    stripShortcodes ("[vc_".data ++ a ++ "]".data) = [] ∧
    stripShortcodes ("[nectar_".data ++ a ++ "]".data) = [] ∧
    stripShortcodes ("[slidepress".data ++ a ++ "]".data) = [] ∧
    stripShortcodes ("[/vc_".data ++ a ++ "]".data) = [] ∧
    stripShortcodes ("[/nectar_".data ++ a ++ "]".data) = [] ∧
    stripShortcodes ("[/slidepress".data ++ a ++ "]".data) =
      "[/slidepress".data ++ a ++ "]".data := by
  have harb : ∀ c ∈ a, c ≠ ']' := fun c hc => (ha c hc).1
  have halb : ∀ c ∈ a, c ≠ '[' := fun c hc => (ha c hc).2
  have hp1 : ∀ x : List Char,
      pickLit scOpenNames ("vc_".data ++ x) = some "vc_".data.length := by
    intro x
    rw [scOpenNames, pickLit_cons_pos _ (litMatch_self_append _ _)]
  have hp2 : ∀ x : List Char,
      pickLit scOpenNames ("nectar_".data ++ x) = some "nectar_".data.length := by
    intro x
    rw [scOpenNames, pickLit_cons_neg _ (litMatch_false_of_take x (by decide)),
      pickLit_cons_pos _ (litMatch_self_append _ _)]
  have hp3 : ∀ x : List Char,
      pickLit scOpenNames ("slidepress".data ++ x) = some "slidepress".data.length := by
    intro x
    rw [scOpenNames, pickLit_cons_neg _ (litMatch_false_of_take x (by decide)),
      pickLit_cons_neg _ (litMatch_false_of_take x (by decide)),
      pickLit_cons_pos _ (litMatch_self_append _ _)]
  have hc1 : ∀ x : List Char,
      pickLit scCloseNames ("vc_".data ++ x) = some "vc_".data.length := by
    intro x
    rw [scCloseNames, pickLit_cons_pos _ (litMatch_self_append _ _)]
  have hc2 : ∀ x : List Char,
      pickLit scCloseNames ("nectar_".data ++ x) = some "nectar_".data.length := by
    intro x
    rw [scCloseNames, pickLit_cons_neg _ (litMatch_false_of_take x (by decide)),
      pickLit_cons_pos _ (litMatch_self_append _ _)]
  refine ⟨?_, ?_, ?_, ?_, ?_, ?_⟩
  · rw [List.append_assoc]
    show stripShortcodes ('[' :: ("vc_".data ++ (a ++ ']' :: []))) = []
    exact stripShort_open_tag _ a (hp1 _) harb
  · rw [List.append_assoc]
    show stripShortcodes ('[' :: ("nectar_".data ++ (a ++ ']' :: []))) = []
    exact stripShort_open_tag _ a (hp2 _) harb
  · rw [List.append_assoc]
    show stripShortcodes ('[' :: ("slidepress".data ++ (a ++ ']' :: []))) = []
    exact stripShort_open_tag _ a (hp3 _) harb
  · rw [List.append_assoc]
    show stripShortcodes ('[' :: '/' :: ("vc_".data ++ (a ++ ']' :: []))) = []
    exact stripShort_close_tag _ a (hc1 _) harb (by decide) halb
  · rw [List.append_assoc]
    show stripShortcodes ('[' :: '/' :: ("nectar_".data ++ (a ++ ']' :: []))) = []
    exact stripShort_close_tag _ a (hc2 _) harb (by decide) halb
  · rw [List.append_assoc]
    show stripShortcodes ('[' :: '/' :: ("slidepress".data ++ (a ++ ']' :: []))) =
      '[' :: '/' :: ("slidepress".data ++ (a ++ ']' :: []))
    exact stripShort_close_slidepress a harb halb

theorem stripShortcodes_spec_witness :
    (∀ c ∈ "row x=1".data, c ≠ ']' ∧ c ≠ '[') ∧
    (stripShortcodes ("[vc_".data ++ "row x=1".data ++ "]".data) = [] ∧
     stripShortcodes ("[nectar_".data ++ "row x=1".data ++ "]".data) = [] ∧
     stripShortcodes ("[slidepress".data ++ "row x=1".data ++ "]".data) = [] ∧
     stripShortcodes ("[/vc_".data ++ "row x=1".data ++ "]".data) = [] ∧
     stripShortcodes ("[/nectar_".data ++ "row x=1".data ++ "]".data) = [] ∧
     stripShortcodes ("[/slidepress".data ++ "row x=1".data ++ "]".data) =
       "[/slidepress".data ++ "row x=1".data ++ "]".data) :=
  ⟨by decide, stripShortcodes_spec "row x=1".data (by decide)⟩

/-- C3 counterexample: a closing `slidepress` shortcode tag is not removed
by the cleaner; it survives `cleanContent` unchanged (the claim asserts it
would be deleted entirely). -/
theorem closing_slidepress_not_removed :
    Importer.cleanContent "[/slidepress]".data = "[/slidepress]".data ∧
    "[/slidepress]".data ≠ ([] : List Char) := ⟨by decide, by decide⟩

/-! ## Claims about `cleanContent` as a whole -/

theorem pickLit_none_of_missing {pats : List (List Char)} (t : List Char)
    (h : ∀ p ∈ pats, ∃ c ∈ p, c ∉ t) : pickLit pats t = none := by
  apply pickLit_eq_none
  intro p hp
  cases hm : litMatch p t with
  | false => rfl
  | true =>
    obtain ⟨c, hcp, hct⟩ := h p hp
    exact absurd (litMatch_subset hm c hcp) hct

/-- A literal-alternation pass is the identity when every alternative
contains a character that does not occur in the string. -/
theorem scanR_pickLit_id (pats : List (List Char)) (repl s : List Char)
    (h : ∀ p ∈ pats, ∃ c ∈ p, c ∉ s) : scanR (pickLit pats) repl s = s := by
  apply scanR_id_of_no_match
  intro t hsuf hne
  apply pickLit_none_of_missing
  intro p hp
  obtain ⟨c, hcp, hcs⟩ := h p hp
  exact ⟨c, hcp, fun hct => hcs (hsuf.subset hct)⟩

theorem scanR_id_of_all_heads {tm : List Char → Option Nat} {repl : List Char}
    (lb : Char) (s : List Char)
    (hstep : ∀ (c : Char) (t : List Char), c ≠ lb → tm (c :: t) = none)
    (hall : ∀ c ∈ s, c ≠ lb) :
    scanR tm repl s = s := by
  apply scanR_id_of_no_match
  intro t hsuf hne
  cases t with
  | nil => exact absurd rfl hne
  | cons c t' => exact hstep c t' (hall c (hsuf.subset (List.mem_cons_self c t')))

theorem tryEmptyP_none_of_no_lt (t : List Char) (h : '<' ∉ t) :
    tryEmptyP t = none := by
  cases hm : litMatch "<p>".data t with
  | false => simp [tryEmptyP, hm]
  | true => exact absurd (litMatch_subset hm '<' (by decide)) h

theorem tryNLRun_none_of_no_nl (t : List Char) (h : '\n' ∉ t) :
    tryNLRun t = none := by
  match t with
  | [] => rfl
  | [c] => rfl
  | c :: d :: rest =>
    have hc : c ≠ '\n' := fun hcn => h (by simp [hcn])
    simp [tryNLRun, hc]

theorem foldl_fix {α β : Type} (f : α → β → α) (a : α) (l : List β)
    (h : ∀ b ∈ l, f a b = a) : l.foldl f a = a := by
  induction l with
  | nil => rfl
  | cons b bs ih =>
    rw [List.foldl_cons, h b (List.mem_cons_self b bs)]
    exact ih (fun x hx => h x (List.mem_cons_of_mem _ hx))

theorem decodeHtmlEntities_id {s : List Char} (h : '&' ∉ s) :
    decodeHtmlEntities s = s := by
  apply foldl_fix
  intro pr hpr
  apply scanR_pickLit_id
  intro p hp
  rcases List.mem_singleton.mp hp with rfl
  have hamp : '&' ∈ pr.1 := by fin_cases hpr <;> decide
  exact ⟨'&', hamp, h⟩

/-- On input free of `[`, `<`, `&`, `:` and newlines, every rewriting stage
of `cleanContent` is the identity, so cleaning only trims. -/
theorem cleanContent_eq_trim {s : List Char}
    (h : ∀ c ∈ s, c ≠ '[' ∧ c ≠ '<' ∧ c ≠ '&' ∧ c ≠ ':' ∧ c ≠ '\n') :
    Importer.cleanContent s = jsTrim s := by
  have hlb : ∀ c ∈ s, c ≠ '[' := fun c hc => (h c hc).1
  have hlt : '<' ∉ s := fun hc => (h _ hc).2.1 rfl
  have hamp : '&' ∉ s := fun hc => (h _ hc).2.2.1 rfl
  have hcolon : ':' ∉ s := fun hc => (h _ hc).2.2.2.1 rfl
  have hnl : '\n' ∉ s := fun hc => (h _ hc).2.2.2.2 rfl
  have h1 : stripOpenSC s = s :=
    scanR_id_of_all_heads '[' s (fun c t hc => tryOpenSC_none_of_head t hc) hlb
  have h2 : stripCloseSC s = s :=
    scanR_id_of_all_heads '[' s (fun c t hc => tryCloseSC_none_of_head t hc) hlb
  have h3 : rewritePQ s = s := by
    apply scanR_pickLit_id
    intro p hp
    have : ':' ∈ p := by fin_cases hp <;> decide
    exact ⟨':', this, hcolon⟩
  have h4 : rewritePanth s = s := by
    apply scanR_pickLit_id
    intro p hp
    rcases List.mem_singleton.mp hp with rfl
    exact ⟨':', by decide, hcolon⟩
  have h5 : dropEmptyP s = s := by
    apply scanR_id_of_no_match
    intro t hsuf hne
    exact tryEmptyP_none_of_no_lt t (fun hc => hlt (hsuf.subset hc))
  have h6 : collapseNL s = s := by
    apply scanR_id_of_no_match
    intro t hsuf hne
    exact tryNLRun_none_of_no_nl t (fun hc => hnl (hsuf.subset hc))
  have h7 : decodeHtmlEntities s = s := decodeHtmlEntities_id hamp
  show jsTrim (decodeHtmlEntities (collapseNL (dropEmptyP
    (rewritePanth (rewritePQ (stripCloseSC (stripOpenSC s))))))) = jsTrim s
  rw [h1, h2, h3, h4, h5, h6, h7]

theorem jsTrim_subset {s : List Char} : ∀ c ∈ jsTrim s, c ∈ s := by
  intro c hc
  have h1 : c ∈ List.dropWhile jsWsChar s :=
    (List.rdropWhile_prefix jsWsChar (List.dropWhile jsWsChar s)).subset hc
  exact (List.dropWhile_suffix jsWsChar).subset h1

theorem head_dropWhile_false {α : Type} (p : α → Bool) :
    ∀ (s : List α) (x : α) (xs : List α), List.dropWhile p s = x :: xs → p x = false := by
  intro s
  induction s with
  | nil => intro x xs h; simp at h
  | cons c cs ih =>
    intro x xs h
    rw [List.dropWhile_cons] at h
    by_cases hc : p c = true
    · rw [if_pos hc] at h
      exact ih x xs h
    · rw [if_neg hc] at h
      have h1 : c = x := by injection h
      rw [← h1]
      cases hb : p c with
      | false => rfl
      | true => exact absurd hb hc

theorem dropWhile_rdropWhile_dropWhile (p : Char → Bool) (s : List Char) :
    List.dropWhile p (List.rdropWhile p (List.dropWhile p s)) =
      List.rdropWhile p (List.dropWhile p s) := by
  cases hr : List.rdropWhile p (List.dropWhile p s) with
  | nil => rfl
  | cons x xs =>
    have hpre := List.rdropWhile_prefix p (List.dropWhile p s)
    rw [hr] at hpre
    rcases hpre with ⟨t, ht⟩
    have hx : p x = false := head_dropWhile_false p s x (xs ++ t) ht.symm
    simp [List.dropWhile_cons, hx]

theorem jsTrim_idem (s : List Char) : jsTrim (jsTrim s) = jsTrim s := by
  show List.rdropWhile jsWsChar (List.dropWhile jsWsChar
    (List.rdropWhile jsWsChar (List.dropWhile jsWsChar s))) = _
  rw [dropWhile_rdropWhile_dropWhile, List.rdropWhile_idempotent]
  rfl

/-- C2 (amended): `cleanContent` is idempotent on inputs containing none of
`[`, `<`, `&`, `:` and no newline — on such inputs a single pass only trims
whitespace.  (It is not idempotent in general: removing matched markup can
splice together a new match, see the counterexample.) -/
theorem cleanContent_idem_on_plain (s : List Char)
    (h : ∀ c ∈ s, c ≠ '[' ∧ c ≠ '<' ∧ c ≠ '&' ∧ c ≠ ':' ∧ c ≠ '\n') :
    Importer.cleanContent (Importer.cleanContent s) = Importer.cleanContent s := by
  have h2 : ∀ c ∈ jsTrim s, c ≠ '[' ∧ c ≠ '<' ∧ c ≠ '&' ∧ c ≠ ':' ∧ c ≠ '\n' :=
    fun c hc => h c (jsTrim_subset c hc)
  rw [cleanContent_eq_trim h, cleanContent_eq_trim h2, jsTrim_idem]

theorem cleanContent_idem_on_plain_witness :
    (∀ c ∈ " hello world ".data, c ≠ '[' ∧ c ≠ '<' ∧ c ≠ '&' ∧ c ≠ ':' ∧ c ≠ '\n') ∧
    Importer.cleanContent (Importer.cleanContent " hello world ".data) =
      Importer.cleanContent " hello world ".data :=
  ⟨by decide, cleanContent_idem_on_plain " hello world ".data (by decide)⟩

/-- C2 counterexample: `cleanContent` is not idempotent.  Removing the inner
shortcode `[vc_a]` from `[vc[vc_a]_y]` splices together the new shortcode
`[vc_y]`, which only a second pass removes. -/
theorem cleanContent_not_idem :
    Importer.cleanContent "[vc[vc_a]_y]".data = "[vc_y]".data ∧
    Importer.cleanContent (Importer.cleanContent "[vc[vc_a]_y]".data) = [] ∧
    Importer.cleanContent (Importer.cleanContent "[vc[vc_a]_y]".data) ≠
      Importer.cleanContent "[vc[vc_a]_y]".data :=
  ⟨by decide, by decide, by decide⟩

theorem pickLit_none_in_append {pats : List (List Char)} {w : List Char}
    (h : tailsNoLit pats w = true) (u : List Char) :
    ∀ w1, w1 <:+ w → w1 ≠ [] → pickLit pats (w1 ++ u) = none := by
  intro w1 hsuf hne
  apply pickLit_eq_none
  intro p hp
  cases hm : litMatch p (w1 ++ u) with
  | false => rfl
  | true =>
    exfalso
    have htake := litMatch_append_left u hm
    have hw1 : w1 ∈ w.tails := (List.mem_tails _ _).mpr hsuf
    have hall := List.all_eq_true.mp h w1 hw1
    rcases Bool.or_eq_true_iff.mp hall with hempty | hall2
    · exact hne (List.isEmpty_iff.mp hempty)
    · have := List.all_eq_true.mp hall2 p hp
      rw [htake] at this
      simp at this

/-- A literal-alternation pass walks through `w` untouched when no
alternative can begin inside `w`. -/
theorem scanR_through (pats : List (List Char)) (repl w u : List Char)
    (h : tailsNoLit pats w = true) :
    scanR (pickLit pats) repl (w ++ u) = w ++ scanR (pickLit pats) repl u :=
  scanR_append_no_match w u (pickLit_none_in_append h u)

/-- C7 (amended): the URL-rewriting stage maps an absolute
`/wp-content/uploads/` URL to the site-relative `/uploads/` prefix for the
exact patterns of the source: `pennquinn.com` with `http` or `https` and
optional `www.`, and `live-pennquinn.pantheonsite.io` with `http` only; in
`cleanContent`, the scenario URL of the spec rewrites as stated while an
`https` URL of the pantheonsite host is left untouched. -/
theorem rewriteUploadUrls_spec :
    (∀ t : List Char,
      rewriteUploadUrls ("https://www.pennquinn.com/wp-content/uploads/".data ++ t) =
        "/uploads/".data ++ rewriteUploadUrls t ∧
      rewriteUploadUrls ("https://pennquinn.com/wp-content/uploads/".data ++ t) =
        "/uploads/".data ++ rewriteUploadUrls t ∧
      rewriteUploadUrls ("http://www.pennquinn.com/wp-content/uploads/".data ++ t) =
        "/uploads/".data ++ rewriteUploadUrls t ∧
      rewriteUploadUrls ("http://pennquinn.com/wp-content/uploads/".data ++ t) =
        "/uploads/".data ++ rewriteUploadUrls t ∧
      rewriteUploadUrls (panthPat ++ t) = "/uploads/".data ++ rewriteUploadUrls t) ∧
    Importer.cleanContent
      "http://live-pennquinn.pantheonsite.io/wp-content/uploads/2017/photo.jpg".data =
      "/uploads/2017/photo.jpg".data ∧
    Importer.cleanContent
      "https://live-pennquinn.pantheonsite.io/wp-content/uploads/2017/photo.jpg".data =
      "https://live-pennquinn.pantheonsite.io/wp-content/uploads/2017/photo.jpg".data := by
  have hupl : tailsNoLit [panthPat] uploadsPath = true := by decide
  have hpanth_pq : tailsNoLit pqPats panthPat = true := by decide
  have hthrough_upl : ∀ X : List Char,
      rewritePanth (uploadsPath ++ X) = uploadsPath ++ rewritePanth X :=
    fun X => scanR_through [panthPat] uploadsPath uploadsPath X hupl
  have hpq_head : ∀ (v t : List Char), pickLit pqPats (v ++ t) = some v.length →
      v ≠ [] → 1 ≤ v.length → rewritePQ (v ++ t) = uploadsPath ++ rewritePQ t := by
    intro v t hm hne h1
    have hsne : v ++ t ≠ [] := fun hx => hne (List.append_eq_nil.mp hx).1
    show scanR (pickLit pqPats) uploadsPath (v ++ t) = _
    rw [scanR_head_match hm h1 hsne, List.drop_left]
    rfl
  have hv1 : ∀ t : List Char,
      pickLit pqPats ("https://www.pennquinn.com/wp-content/uploads/".data ++ t) =
        some "https://www.pennquinn.com/wp-content/uploads/".data.length := by
    intro t
    rw [pqPats, pickLit_cons_pos _ (litMatch_self_append _ _)]
  have hv2 : ∀ t : List Char,
      pickLit pqPats ("https://pennquinn.com/wp-content/uploads/".data ++ t) =
        some "https://pennquinn.com/wp-content/uploads/".data.length := by
    intro t
    rw [pqPats, pickLit_cons_neg _ (litMatch_false_of_take t (by decide)),
      pickLit_cons_pos _ (litMatch_self_append _ _)]
  have hv3 : ∀ t : List Char,
      pickLit pqPats ("http://www.pennquinn.com/wp-content/uploads/".data ++ t) =
        some "http://www.pennquinn.com/wp-content/uploads/".data.length := by
    intro t
    rw [pqPats, pickLit_cons_neg _ (litMatch_false_of_take t (by decide)),
      pickLit_cons_neg _ (litMatch_false_of_take t (by decide)),
      pickLit_cons_pos _ (litMatch_self_append _ _)]
  have hv4 : ∀ t : List Char,
      pickLit pqPats ("http://pennquinn.com/wp-content/uploads/".data ++ t) =
        some "http://pennquinn.com/wp-content/uploads/".data.length := by
    intro t
    rw [pqPats, pickLit_cons_neg _ (litMatch_false_of_take t (by decide)),
      pickLit_cons_neg _ (litMatch_false_of_take t (by decide)),
      pickLit_cons_neg _ (litMatch_false_of_take t (by decide)),
      pickLit_cons_pos _ (litMatch_self_append _ _)]
  have hpanth_head : ∀ X : List Char,
      rewritePanth (panthPat ++ X) = uploadsPath ++ rewritePanth X := by
    intro X
    have hm : pickLit [panthPat] (panthPat ++ X) = some panthPat.length :=
      pickLit_cons_pos _ (litMatch_self_append _ _)
    have hsne : panthPat ++ X ≠ [] := fun hx => by
      have := (List.append_eq_nil.mp hx).1
      revert this
      decide
    show scanR (pickLit [panthPat]) uploadsPath (panthPat ++ X) = _
    rw [scanR_head_match hm (by decide) hsne, List.drop_left]
    rfl
  refine ⟨?_, by decide, by decide⟩
  intro t
  refine ⟨?_, ?_, ?_, ?_, ?_⟩
  · show rewritePanth (rewritePQ _) = _
    rw [hpq_head _ t (hv1 t) (by decide) (by decide), hthrough_upl]
    rfl
  · show rewritePanth (rewritePQ _) = _
    rw [hpq_head _ t (hv2 t) (by decide) (by decide), hthrough_upl]
    rfl
  · show rewritePanth (rewritePQ _) = _
    rw [hpq_head _ t (hv3 t) (by decide) (by decide), hthrough_upl]
    rfl
  · show rewritePanth (rewritePQ _) = _
    rw [hpq_head _ t (hv4 t) (by decide) (by decide), hthrough_upl]
    rfl
  · show rewritePanth (rewritePQ _) = _
    have hpq : rewritePQ (panthPat ++ t) = panthPat ++ rewritePQ t :=
      scanR_through pqPats uploadsPath panthPat t hpanth_pq
    rw [hpq, hpanth_head]
    rfl

/-- C7 counterexample: an `https` URL of the legacy pantheonsite host with
path `/wp-content/uploads/` is not rewritten by `cleanContent` (the claim
asserts every such URL of the two legacy hosts is rewritten; the regex
accepts only `http` for this host). -/
theorem pantheonsite_https_not_rewritten :
    Importer.cleanContent
      "https://live-pennquinn.pantheonsite.io/wp-content/uploads/a.jpg".data =
      "https://live-pennquinn.pantheonsite.io/wp-content/uploads/a.jpg".data ∧
    "https://live-pennquinn.pantheonsite.io/wp-content/uploads/a.jpg".data ≠
      "/uploads/a.jpg".data :=
  ⟨by decide, by decide⟩

/-- C4 (amended): `decodeHtmlEntities` maps each of the twelve listed
entities to the replacement string fixed in the source — the literal
character for `&amp; &lt; &gt; &quot; &#039;`, an ASCII approximation
for `&rsquo; &lsquo; &rdquo; &ldquo; &hellip; &ndash;` (the straight
quote U+0022, not the curly quotes U+201D/U+201C, for `&rdquo;` and
`&ldquo;`), and the three-character mojibake sequence `â€”` (not an em
dash) for `&mdash;` — and the decoding is applied to both the draft
title and (inside `cleanContent`) the draft content. -/
theorem decodeHtmlEntities_spec :
    (decodeHtmlEntities "&amp;".data = "&".data ∧
     decodeHtmlEntities "&lt;".data = "<".data ∧
     decodeHtmlEntities "&gt;".data = ">".data ∧
     decodeHtmlEntities "&quot;".data = "\"".data ∧
     decodeHtmlEntities "&#039;".data = "\x27".data ∧
     decodeHtmlEntities "&rsquo;".data = "\x27".data ∧
     decodeHtmlEntities "&lsquo;".data = "\x27".data ∧
     decodeHtmlEntities "&rdquo;".data = "\"".data ∧
     decodeHtmlEntities "&ldquo;".data = "\"".data ∧
     decodeHtmlEntities "&hellip;".data = "...".data ∧
     decodeHtmlEntities "&ndash;".data = "-".data ∧
     decodeHtmlEntities "&mdash;".data = "â€”".data) ∧
    (∀ (it : Item) (d : Draft), Importer.processItem it = some d →
      d.title = decodeHtmlEntities (jsOrStr it.title "Untitled".data) ∧
      d.content = Importer.cleanContent (jsOrStr it.contentEncoded []) ∧
      Importer.cleanContent (jsOrStr it.contentEncoded []) =
        jsTrim (decodeHtmlEntities (collapseNL (dropEmptyP (rewritePanth (rewritePQ
          (stripShortcodes (jsOrStr it.contentEncoded [])))))))) := by
  refine ⟨by decide, ?_⟩
  intro it d hd
  rw [Importer.processItem.eq_def] at hd
  split at hd
  · split at hd
    · have hsub := Option.some.inj hd
      refine ⟨?_, ?_, ?_⟩
      · rw [← hsub]
        simp only [Importer.buildDraft]
      · rw [← hsub]
        simp only [Importer.buildDraft]
      · simp only [Importer.cleanContent]
    · exact absurd hd (by simp)
  · exact absurd hd (by simp)

theorem decodeHtmlEntities_spec_witness :
    Importer.processItem demoDecodeItem = some demoDecodeDraft ∧
    (demoDecodeDraft.title =
        decodeHtmlEntities (jsOrStr demoDecodeItem.title "Untitled".data) ∧
     demoDecodeDraft.content =
        Importer.cleanContent (jsOrStr demoDecodeItem.contentEncoded []) ∧
     Importer.cleanContent (jsOrStr demoDecodeItem.contentEncoded []) =
        jsTrim (decodeHtmlEntities (collapseNL (dropEmptyP (rewritePanth (rewritePQ
          (stripShortcodes (jsOrStr demoDecodeItem.contentEncoded [])))))))) :=
  ⟨by decide, decodeHtmlEntities_spec.2 demoDecodeItem demoDecodeDraft (by decide)⟩

/-- C4 counterexample: `&mdash;` is not decoded to its literal character
(the em dash `—`); the source replaces it with the mojibake sequence
`â€”`. -/
theorem mdash_not_literal :
    decodeHtmlEntities "&mdash;".data = "â€”".data ∧
    "â€”".data ≠ "—".data :=
  ⟨by decide, by decide⟩

/-! ## Claims about the item filter, missing-field defaults and the sort -/

theorem insertByDate_perm (d : Draft) (l : List Draft) :
    (insertByDate d l).Perm (d :: l) := by
  induction l with
  | nil => exact List.Perm.refl _
  | cons e es ih =>
    by_cases h : dateDescLe d e = true
    · simp only [insertByDate, if_pos h]
      exact List.Perm.refl _
    · simp only [insertByDate, if_neg h]
      exact (ih.cons e).trans (List.Perm.swap d e es)

theorem sortByDateDesc_perm (l : List Draft) : (sortByDateDesc l).Perm l := by
  induction l with
  | nil => exact List.Perm.refl _
  | cons d ds ih =>
    show (insertByDate d (sortByDateDesc ds)).Perm (d :: ds)
    exact (insertByDate_perm d _).trans (ih.cons d)

/-- Inversion of the per-item body of the migration script: an item that
produced a draft passed the type/status filter and the year filter, and
the draft is the one built from the item. -/
theorem processItem_inv {fy : Option (List Char)} {it : Item} {d : Draft}
    (hd : Migrator.processItem fy it = some d) :
    it.postType = some "post".data ∧ it.status = some "publish".data ∧
    d = Migrator.buildDraft it "post".data "publish".data ∧
    (∀ y, fy = some y → y ≠ [] → (jsOrStr it.postDate []).take 4 = y) := by
  rw [Migrator.processItem.eq_def] at hd
  split at hd
  · split at hd
    · split at hd
      · exact absurd hd (by simp)
      · rename_i x1 x2 pt st hpt hst hps hskip
        obtain ⟨hpt2, hst2⟩ := hps
        subst hpt2
        subst hst2
        refine ⟨hpt, hst, (Option.some.inj hd).symm, ?_⟩
        intro y hy hyne
        subst hy
        have hskip2 : ¬ ((decide (y ≠ []) &&
            decide ((jsOrStr it.postDate []).take 4 ≠ y)) = true) := hskip
        by_contra hne
        apply hskip2
        simp [hyne, hne]
    · exact absurd hd (by simp)
  · exact absurd hd (by simp)

/-- C5: every draft in the importer output comes from an item whose post
type is `post` and whose status is `publish`; and under a four-digit year
filter, the date of every output draft starts with that year. -/
theorem parseWordPressXML_filter (items : List Item) (fy : Option (List Char))
    (d : Draft) :
    d ∈ Migrator.parseWordPressXML items fy →
      (∃ it ∈ items, it.postType = some "post".data ∧
        it.status = some "publish".data ∧ Migrator.processItem fy it = some d) ∧
      (∀ y, fy = some y → y.length = 4 → d.date.take 4 = y) := by
  intro hmem
  have hmem2 : d ∈ items.filterMap (Migrator.processItem fy) :=
    (sortByDateDesc_perm _).mem_iff.mp hmem
  obtain ⟨it, hit, hpi⟩ := List.mem_filterMap.mp hmem2
  obtain ⟨hpt, hst, hdd, hskip⟩ := processItem_inv hpi
  refine ⟨⟨it, hit, hpt, hst, hpi⟩, ?_⟩
  intro y hy hylen
  have hyne : y ≠ [] := by
    intro h0
    rw [h0] at hylen
    simp at hylen
  have htake : (jsOrStr it.postDate []).take 4 = y := hskip y hy hyne
  have hdate : d.date = jsOrStr it.postDate [] := by
    rw [hdd]
    simp only [Migrator.buildDraft]
  rw [hdate]
  exact htake

theorem parseWordPressXML_filter_witness :
    demoYearDraft ∈ Migrator.parseWordPressXML [demoYearItem] (some "2017".data) ∧
    (∃ it ∈ [demoYearItem], it.postType = some "post".data ∧
      it.status = some "publish".data ∧
      Migrator.processItem (some "2017".data) it = some demoYearDraft) ∧
    ("2017".data : List Char).length = 4 ∧
    demoYearDraft.date.take 4 = "2017".data :=
  ⟨by decide,
   (parseWordPressXML_filter [demoYearItem] (some "2017".data) demoYearDraft
     (by decide)).1,
   by decide,
   (parseWordPressXML_filter [demoYearItem] (some "2017".data) demoYearDraft
     (by decide)).2 "2017".data rfl (by decide)⟩

/-- C9 (amended): a missing title defaults to `Untitled` and a missing date
to the empty string, neither being an error; an empty date makes the sort
comparator NaN, which ECMA-262 treats as 0, so the draft ties with every
other draft and the stable sort keeps it in its relative input position
(in particular a leading empty-date draft stays first — it does not sink
to the end of the date-descending list). -/
theorem missing_defaults_spec (fy : Option (List Char)) (it : Item) (d : Draft) :
    (Migrator.processItem fy it = some d →
      (it.title = none → d.title = "Untitled".data) ∧
      (it.postDate = none → d.date = [])) ∧
    (d.date = [] →
      (∀ e, dateDescLe d e = true ∧ dateDescLe e d = true) ∧
      (∀ l, sortByDateDesc (d :: l) = d :: sortByDateDesc l)) := by
  constructor
  · intro hd
    obtain ⟨_, _, hdd, _⟩ := processItem_inv hd
    constructor
    · intro ht
      rw [hdd]
      simp only [Migrator.buildDraft]
      rw [ht]
      rfl
    · intro hdt
      rw [hdd]
      simp only [Migrator.buildDraft]
      rw [hdt]
      rfl
  · intro hdate
    have hnone : newDateMillis d.date = none := by
      rw [hdate]
      rfl
    have htie : ∀ e, dateDescLe d e = true := by
      intro e
      simp only [dateDescLe]
      rw [hnone]
    have htie2 : ∀ e, dateDescLe e d = true := by
      intro e
      simp only [dateDescLe]
      rw [hnone]
      cases newDateMillis e.date <;> rfl
    refine ⟨fun e => ⟨htie e, htie2 e⟩, ?_⟩
    intro l
    show insertByDate d (sortByDateDesc l) = d :: sortByDateDesc l
    cases sortByDateDesc l with
    | nil => rfl
    | cons e es => simp only [insertByDate, if_pos (htie e)]

theorem missing_defaults_spec_witness :
    Migrator.processItem none cexItemNoDate = some cexDraftNoDate ∧
    cexDraftNoDate.title = "Untitled".data ∧
    cexDraftNoDate.date = [] ∧
    (dateDescLe cexDraftNoDate demoYearDraft = true ∧
     dateDescLe demoYearDraft cexDraftNoDate = true) ∧
    sortByDateDesc (cexDraftNoDate :: [demoYearDraft]) =
      cexDraftNoDate :: sortByDateDesc [demoYearDraft] := by
  have T := missing_defaults_spec none cexItemNoDate cexDraftNoDate
  exact ⟨by decide,
    (T.1 (by decide)).1 rfl,
    (T.1 (by decide)).2 rfl,
    (T.2 (by decide)).1 demoYearDraft,
    (T.2 (by decide)).2 [demoYearDraft]⟩

/-- C9 counterexample: with a dateless item first and a 2017-dated item
second, the sorted output keeps the empty-date draft first — its dates list
is `["", "2017-01-01 00:00:00"]` — so the empty-date item is not the last
(earliest) element the claim requires. -/
theorem empty_date_not_last :
    (Migrator.parseWordPressXML [cexItemNoDate, cexItemDated] none).map Draft.date =
      [[], "2017-01-01 00:00:00".data] ∧
    ([] : List Char) ≠ "2017-01-01 00:00:00".data :=
  ⟨by decide, by decide⟩

end PQ
